import Mathlib

/-!
# Verification of the `tree-ds` tree container

A shallow embedding of `src/tree.rs` (the `Tree` container of the
`tree-ds` crate) together with proofs about its operations.

The store is a `Vec<Node<Q, T>>`; a `Node` is a shared mutable handle
(the node type itself lives in `node.rs`, outside the sources at hand,
so its operations are modelled from the spec's collaborator contract,
§6).  Shared mutation through a handle is modelled by updating, in the
store, the entry whose id equals the handle's id; a handle that is no
longer in the store has no observable state of its own except for the
side effects its operations make on nodes that are still stored.

Panics (`unwrap` on `None`) are modelled by returning `none` from an
`Option`-valued function; possibly non-terminating recursions over the
store (which terminate on every well-formed tree) take a fuel
parameter, with fuel exhaustion also returning `none`.
-/

set_option linter.unusedSectionVars false

deriving instance DecidableEq for Except

namespace TreeDS

/-- Modelled from the spec: the error type of `error.rs` (not among the
sources), §7: `RootNodeAlreadyPresent` and `InvalidOperation` (the
latter carrying a message string, as used in `tree.rs` line 386). -/
inductive TreeError where
  | RootNodeAlreadyPresent : TreeError
  | InvalidOperation : String → TreeError
deriving DecidableEq

/-- Modelled from the spec: a node record (§3, §6): identity `node_id`,
payload `value`, optional `parent`, ordered `children` id list (field
names as in the crate's serde format). -/
structure Node (Q T : Type) where
  node_id : Q
  value : T
  parent : Option Q
  children : List Q
deriving DecidableEq

/-- `Tree` from `tree.rs`: an ordered sequence of nodes. -/
structure Tree (Q T : Type) where
  nodes : List (Node Q T)
deriving DecidableEq

variable {Q T : Type} [DecidableEq Q]

/-- Modelled from the spec: `Node::new` creates a node independent of
any tree (§3 lifecycle), with no parent and no children. -/
def Node.new (node_id : Q) (value : T) : Node Q T :=
  { node_id := node_id, value := value, parent := none, children := [] }

/-- `Tree::new` / `Default`: the empty store. -/
def Tree.new : Tree Q T := ⟨[]⟩

/-- `Tree::get_node`: first stored node with the given id. -/
def get_node (t : Tree Q T) (node_id : Q) : Option (Node Q T) :=
  t.nodes.find? (fun n => n.node_id = node_id)

/-- `Tree::get_root_node`: first stored node without a parent. -/
def get_root_node (t : Tree Q T) : Option (Node Q T) :=
  t.nodes.find? (fun n => n.parent.isNone)

/-- Shared-handle mutation: apply `f` to every stored node whose id is
`node_id` (ids are unique on well-formed trees, so this is "the" entry
the handle designates). -/
def update_node (t : Tree Q T) (node_id : Q) (f : Node Q T → Node Q T) : Tree Q T :=
  ⟨t.nodes.map (fun n => if n.node_id = node_id then f n else n)⟩

/-- Modelled from the spec: `Node::add_child` (§6) appends the child's
id to this node's child list and, by side effect, sets the child's
`parent` field to this node's id.  Both nodes are designated by id in
the store. -/
def add_child (t : Tree Q T) (parent_id child_id : Q) : Tree Q T :=
  update_node (update_node t parent_id
      (fun n => { n with children := n.children ++ [child_id] }))
    child_id (fun n => { n with parent := some parent_id })

/-- Modelled from the spec: `Node::remove_child` (§6) removes the
child's id from this node's child list and, by side effect, clears the
child's `parent` field (the child is "fully disconnected", §4.1). -/
def remove_child (t : Tree Q T) (parent_id child_id : Q) : Tree Q T :=
  update_node (update_node t parent_id
      (fun n => { n with children := n.children.filter (fun c => c ≠ child_id) }))
    child_id (fun n => { n with parent := none })

/-- `Tree::add_node` (`tree.rs` lines 111–125).  With `Some(pid)`: if
the parent is found, `parent.add_child(node.clone())` appends the id to
the parent's child list and sets the (not yet stored) node's parent
field; if not found the attach is silently skipped.  With `None`: error
if a root already exists.  In all non-error cases the node is pushed
and its id returned. -/
def add_node (t : Tree Q T) (node : Node Q T) (parent_id : Option Q) :
    Except TreeError Q × Tree Q T :=
  match parent_id with
  | some pid =>
    match get_node t pid with
    | some _ =>
      let t1 := update_node t pid (fun p => { p with children := p.children ++ [node.node_id] })
      (Except.ok node.node_id, ⟨t1.nodes ++ [{ node with parent := some pid }]⟩)
    | none => (Except.ok node.node_id, ⟨t.nodes ++ [node]⟩)
  | none =>
    if (get_root_node t).isSome then
      (Except.error TreeError.RootNodeAlreadyPresent, t)
    else
      (Except.ok node.node_id, ⟨t.nodes ++ [node]⟩)

lemma get_root_node_isSome_iff (t : Tree Q T) :
    (get_root_node t).isSome = true ↔ ∃ n ∈ t.nodes, n.parent = none := by
  simp only [get_root_node, List.find?_isSome, Option.isNone_iff_eq_none, decide_eq_true_eq]

lemma find_append_singleton {α : Type} (p : α → Bool) (l : List α) (a : α)
    (h : ∀ x ∈ l, ¬ (p x = true)) (ha : p a = true) :
    List.find? p (l ++ [a]) = some a := by
  induction l with
  | nil => simp [List.find?, ha]
  | cons b bs ih =>
    have hb : ¬ (p b = true) := h b (by simp)
    simp only [List.cons_append, List.find?]
    rw [Bool.eq_false_iff.mpr hb]
    exact ih (fun x hmem => h x (by simp [hmem]))

lemma get_root_node_append_of_no_root (t : Tree Q T) (node : Node Q T)
    (h : ¬ ∃ n ∈ t.nodes, n.parent = none) (hn : node.parent = none) :
    get_root_node (⟨t.nodes ++ [node]⟩ : Tree Q T) = some node := by
  have hall : ∀ n ∈ t.nodes, ¬ (n.parent.isNone = true) := by
    intro n hmem hcontra
    exact h ⟨n, hmem, Option.isNone_iff_eq_none.mp hcontra⟩
  exact find_append_singleton _ _ _ hall (by simp [hn])

/-- C1: `add_node` with `parent_id = None` returns
`RootNodeAlreadyPresent` and leaves the store unchanged exactly when a
rootless node is already stored; otherwise it appends the node, which
(having no parent, as built by `Node::new`) becomes the root, and
returns its id. -/
theorem add_node_none_spec (t : Tree Q T) (node : Node Q T) :
    ((∃ n ∈ t.nodes, n.parent = none) →
      add_node t node none = (Except.error TreeError.RootNodeAlreadyPresent, t)) ∧
    ((¬ ∃ n ∈ t.nodes, n.parent = none) →
      add_node t node none = (Except.ok node.node_id, ⟨t.nodes ++ [node]⟩) ∧
      (node.parent = none →
        get_root_node (⟨t.nodes ++ [node]⟩ : Tree Q T) = some node)) := by
  constructor
  · intro hroot
    have hs : (get_root_node t).isSome = true := (get_root_node_isSome_iff t).mpr hroot
    simp [add_node, hs]
  · intro hroot
    have hs : ¬ ((get_root_node t).isSome = true) := by
      intro hcontra
      exact hroot ((get_root_node_isSome_iff t).mp hcontra)
    refine ⟨by simp [add_node, hs], fun hn => get_root_node_append_of_no_root t node hroot hn⟩

/-- Witness for C1: on a one-node tree adding a second rootless node
fails and leaves the store unchanged; on the empty tree it succeeds. -/
theorem add_node_none_spec_witness :
    (add_node (⟨[Node.new 1 2]⟩ : Tree ℕ ℕ) (Node.new 2 3) none
      = (Except.error TreeError.RootNodeAlreadyPresent, ⟨[Node.new 1 2]⟩)) ∧
    (add_node (Tree.new : Tree ℕ ℕ) (Node.new 1 2) none
      = (Except.ok 1, ⟨[Node.new 1 2]⟩)) :=
  ⟨(add_node_none_spec _ _).1 ⟨Node.new 1 2, by decide, by decide⟩,
    ((add_node_none_spec (Tree.new : Tree ℕ ℕ) (Node.new 1 2)).2 (by decide)).1⟩

/-- C4, counterexample part: adding node 2 under the absent parent id
99 (store holds only root 1) inserts the node with its `parent` field
still `none` — the inserted node does NOT hold "a parent reference to
an absent id", refuting that conjunct of the claim; it is, however, a
second rootless node. -/
theorem add_node_missing_parent_cex :
    (add_node (⟨[Node.new 1 2]⟩ : Tree ℕ ℕ) (Node.new 2 3) (some 99)).1 = Except.ok 2 ∧
    get_node (add_node (⟨[Node.new 1 2]⟩ : Tree ℕ ℕ) (Node.new 2 3) (some 99)).2 2
      = some { node_id := 2, value := 3, parent := none, children := [] } := by
  decide

/-- C4, amended: with `Some(p)` where `p` is not in the store,
`add_node` returns no error, changes no stored node (in particular no
child list), and appends the node unchanged — its `parent` field keeps
its creation value (`none` for a `Node::new` node, which therefore
becomes a second rootless node). -/
theorem add_node_missing_parent_spec (t : Tree Q T) (node : Node Q T) (p : Q)
    (hp : get_node t p = none) :
    add_node t node (some p) = (Except.ok node.node_id, ⟨t.nodes ++ [node]⟩) := by
  simp [add_node, hp]

/-- Witness for the amended C4. -/
theorem add_node_missing_parent_spec_witness :
    add_node (⟨[Node.new 1 2]⟩ : Tree ℕ ℕ) (Node.new 2 3) (some 99)
      = (Except.ok 2, ⟨[Node.new 1 2, Node.new 2 3]⟩) :=
  add_node_missing_parent_spec _ _ _ (by decide)

/-- Number of stored nodes without a parent. -/
def rootless_count (t : Tree Q T) : ℕ :=
  t.nodes.countP (fun n => n.parent.isNone)

/-- Run a sequence of `add_node` calls, threading the store. -/
def add_nodes (t : Tree Q T) : List (Node Q T × Option Q) → Tree Q T
  | [] => t
  | (n, pid) :: rest => add_nodes (add_node t n pid).2 rest

/-- A valid forest-building order (C5): every node enters with no
parent (as built by `Node::new`), every `Some(parent_id)` refers to a
node already in the store, and every `None` call happens while no root
exists (which is what makes each call successful). -/
def valid_seq (t : Tree Q T) : List (Node Q T × Option Q) → Bool
  | [] => true
  | (n, pid) :: rest =>
    n.parent.isNone &&
    (match pid with
     | none => (get_root_node t).isNone
     | some p => (get_node t p).isSome) &&
    valid_seq (add_node t n pid).2 rest

lemma valid_seq_append_left (l₁ l₂ : List (Node Q T × Option Q)) (t : Tree Q T)
    (h : valid_seq t (l₁ ++ l₂) = true) : valid_seq t l₁ = true := by
  induction l₁ generalizing t with
  | nil => simp [valid_seq]
  | cons op rest ih =>
    obtain ⟨n, pid⟩ := op
    simp only [List.cons_append, valid_seq, Bool.and_eq_true] at h ⊢
    exact ⟨h.1, ih _ h.2⟩

lemma rootless_count_update_node (t : Tree Q T) (q : Q) (f : List Q → List Q) :
    rootless_count (update_node t q (fun n => { n with children := f n.children })) =
      rootless_count t := by
  simp only [rootless_count, update_node, List.countP_map]
  apply List.countP_congr
  intro n _
  by_cases h : n.node_id = q <;> simp [h]

lemma rootless_count_step (t : Tree Q T) (n : Node Q T) (pid : Option Q)
    (hn : n.parent = none)
    (hok : match pid with
           | none => get_root_node t = none
           | some p => (get_node t p).isSome = true) :
    rootless_count (add_node t n pid).2 =
      (match pid with
       | none => rootless_count t + 1
       | some _ => rootless_count t) := by
  match pid with
  | none =>
    have hs : (get_root_node t).isSome = false := by simp [hok]
    simp [add_node, hs, rootless_count, List.countP_append, hn, List.countP_cons]
  | some p =>
    obtain ⟨pn, hpn⟩ := Option.isSome_iff_exists.mp hok
    simp only [add_node, hpn]
    have hupd := rootless_count_update_node t p (fun cs => cs ++ [n.node_id])
    simp only [rootless_count, List.countP_append] at hupd ⊢
    simp [hupd, List.countP_cons]

lemma rootless_count_pos_root (t : Tree Q T) (h : 0 < rootless_count t) :
    (get_root_node t).isSome = true := by
  rw [rootless_count, List.countP_pos_iff] at h
  obtain ⟨n, hmem, hp⟩ := h
  rw [get_root_node, List.find?_isSome]
  exact ⟨n, hmem, hp⟩

lemma rootless_count_add_nodes (ops : List (Node Q T × Option Q)) (t : Tree Q T)
    (hv : valid_seq t ops = true) (h1 : rootless_count t = 1) :
    rootless_count (add_nodes t ops) = 1 := by
  induction ops generalizing t with
  | nil => simpa [add_nodes] using h1
  | cons op rest ih =>
    obtain ⟨n, pid⟩ := op
    simp only [valid_seq, Bool.and_eq_true] at hv
    obtain ⟨⟨hn, hok⟩, hrest⟩ := hv
    have hn' : n.parent = none := Option.isNone_iff_eq_none.mp hn
    match pid with
    | none =>
      have : (get_root_node t).isSome = true :=
        rootless_count_pos_root t (by omega)
      simp [Option.isNone_iff_eq_none, ← Option.not_isSome_iff_eq_none, this] at hok
    | some p =>
      have hstep := rootless_count_step t n (some p) hn' hok
      simp only [add_nodes]
      exact ih _ hrest (by simpa [hstep] using h1)

lemma rootless_count_first_step (n : Node Q T) (pid : Option Q)
    (rest : List (Node Q T × Option Q))
    (hv : valid_seq (Tree.new : Tree Q T) ((n, pid) :: rest) = true) :
    rootless_count (add_node (Tree.new : Tree Q T) n pid).2 = 1 ∧
      valid_seq (add_node (Tree.new : Tree Q T) n pid).2 rest = true := by
  simp only [valid_seq, Bool.and_eq_true] at hv
  obtain ⟨⟨hn, hok⟩, hrest⟩ := hv
  have hn' : n.parent = none := Option.isNone_iff_eq_none.mp hn
  refine ⟨?_, hrest⟩
  match pid with
  | none =>
    have hroot : get_root_node (Tree.new : Tree Q T) = none := by
      simp [get_root_node, Tree.new]
    have := rootless_count_step (Tree.new : Tree Q T) n none hn' hroot
    simpa [rootless_count, Tree.new] using this
  | some p =>
    simp [get_node, Tree.new] at hok

/-- C5: for every nonempty valid forest-building order run from the
empty tree, the final store has exactly one rootless node, and after
any nonempty prefix of the sequence a further `add_node` with
`parent_id = None` returns `RootNodeAlreadyPresent`. -/
theorem add_node_single_root_invariant (ops : List (Node Q T × Option Q))
    (hne : ops ≠ []) (hv : valid_seq (Tree.new : Tree Q T) ops = true) :
    rootless_count (add_nodes (Tree.new : Tree Q T) ops) = 1 ∧
    (∀ pre, pre <+: ops → pre ≠ [] → ∀ node : Node Q T,
      (add_node (add_nodes (Tree.new : Tree Q T) pre) node none).1
        = Except.error TreeError.RootNodeAlreadyPresent) := by
  have key : ∀ l : List (Node Q T × Option Q), l ≠ [] →
      valid_seq (Tree.new : Tree Q T) l = true →
      rootless_count (add_nodes (Tree.new : Tree Q T) l) = 1 := by
    intro l hlne hlv
    match l with
    | (n, pid) :: rest =>
      obtain ⟨h1, hrest⟩ := rootless_count_first_step n pid rest hlv
      simpa [add_nodes] using rootless_count_add_nodes rest _ hrest h1
  refine ⟨key ops hne hv, ?_⟩
  intro pre hpre hprene node
  obtain ⟨suf, hsuf⟩ := hpre
  have hvpre : valid_seq (Tree.new : Tree Q T) pre = true :=
    valid_seq_append_left pre suf _ (by rw [hsuf]; exact hv)
  have h1 : rootless_count (add_nodes (Tree.new : Tree Q T) pre) = 1 :=
    key pre hprene hvpre
  have hs : (get_root_node (add_nodes (Tree.new : Tree Q T) pre)).isSome = true :=
    rootless_count_pos_root _ (by omega)
  simp [add_node, hs]

/-- Witness for C5: the two-step sequence "add root 1, add 2 under 1"
is a valid forest-building order; afterwards exactly one rootless node
is stored and a rootless add fails. -/
theorem add_node_single_root_invariant_witness :
    rootless_count (add_nodes (Tree.new : Tree ℕ ℕ)
        [(Node.new 1 2, none), (Node.new 2 3, some 1)]) = 1 ∧
    (∀ pre, pre <+: [((Node.new 1 2 : Node ℕ ℕ), (none : Option ℕ)), (Node.new 2 3, some 1)] →
      pre ≠ [] → ∀ node : Node ℕ ℕ,
      (add_node (add_nodes (Tree.new : Tree ℕ ℕ) pre) node none).1
        = Except.error TreeError.RootNodeAlreadyPresent) :=
  add_node_single_root_invariant _ (by decide) (by decide)

/-! ## Well-formedness (§3 data-model invariants) and subtree unfoldings -/

/-- The §3 data-model invariants of a `Tree`: pairwise distinct ids,
parent links point to stored nodes that list the child, child lists
point to stored nodes whose parent points back, no node is listed as a
child twice, and the parent relation is acyclic (witnessed by a depth
function that strictly increases from parent to child). -/
structure WF (t : Tree Q T) : Prop where
  nodup_ids : (t.nodes.map Node.node_id).Nodup
  parent_mem : ∀ n ∈ t.nodes, ∀ p, n.parent = some p →
      ∃ pn, get_node t p = some pn ∧ n.node_id ∈ pn.children
  child_mem : ∀ n ∈ t.nodes, ∀ c ∈ n.children,
      ∃ cn, get_node t c = some cn ∧ cn.parent = some n.node_id
  children_nodup : ∀ n ∈ t.nodes, n.children.Nodup
  acyclic : ∃ d : Q → ℕ, ∀ n ∈ t.nodes, ∀ p, n.parent = some p → d p < d n.node_id

/-- Rose tree of ids: the shape a (finite, acyclic) stored subtree
unfolds to. -/
inductive RT (Q : Type) where
  | mk (rootId : Q) (children : List (RT Q))

def RT.rootId : RT Q → Q
  | .mk r _ => r

/-- Preorder id list of a rose tree: the root plus all descendants. -/
def RT.idList : RT Q → List Q
  | .mk r cs => r :: (cs.attach.map (fun c => RT.idList c.1)).flatten
termination_by rt => sizeOf rt
decreasing_by
  simp only [RT.mk.sizeOf_spec]
  have := List.sizeOf_lt_of_mem c.2
  omega

lemma attach_map_fn {α β : Type} (l : List α) (g : α → β) :
    l.attach.map (fun x => g x.1) = l.map g := by
  rw [List.attach_map_val]

lemma idList_mk (r : Q) (cs : List (RT Q)) :
    RT.idList (RT.mk r cs) = r :: (cs.map RT.idList).flatten := by
  rw [RT.idList, attach_map_fn]

mutual
/-- The stored subtree at `id` unfolds to the rose tree `rt`: the node
is stored and its child list unfolds pointwise.  A finite unfolding
exists exactly when the subtree at `id` is acyclic, and it is the tree
the recursive walks of `tree.rs` traverse. -/
inductive Unfolds (t : Tree Q T) : Q → RT Q → Prop where
  | mk {id : Q} {node : Node Q T} {rts : List (RT Q)} :
      get_node t id = some node →
      UnfoldsList t node.children rts →
      Unfolds t id (RT.mk id rts)

/-- Pointwise unfolding of a child id list. -/
inductive UnfoldsList (t : Tree Q T) : List Q → List (RT Q) → Prop where
  | nil : UnfoldsList t [] []
  | cons {c : Q} {rc : RT Q} {cs : List Q} {rcs : List (RT Q)} :
      Unfolds t c rc → UnfoldsList t cs rcs →
      UnfoldsList t (c :: cs) (rc :: rcs)
end

lemma unfolds_rootId {t : Tree Q T} {id : Q} {rt : RT Q}
    (h : Unfolds t id rt) : rt.rootId = id := by
  cases h; rfl

lemma unfolds_get_node {t : Tree Q T} {id : Q} {rt : RT Q}
    (h : Unfolds t id rt) : ∃ node, get_node t id = some node := by
  cases h with
  | mk hget _ => exact ⟨_, hget⟩

lemma idList_length_pos (rt : RT Q) : 0 < rt.idList.length := by
  cases rt with
  | mk r cs => rw [idList_mk]; simp

lemma idList_mem_self (rt : RT Q) : rt.rootId ∈ rt.idList := by
  cases rt with
  | mk r cs => rw [idList_mk]; exact List.mem_cons_self _ _

lemma length_le_join {α : Type} (l : List α) (L : List (List α)) (h : l ∈ L) :
    l.length ≤ L.flatten.length := by
  induction L with
  | nil => cases h
  | cons x xs ih =>
    rcases List.mem_cons.mp h with h | h
    · subst h; simp
    · have := ih h
      simp only [List.flatten, List.length_append]
      omega

lemma child_idList_sublength {r : Q} {cs : List (RT Q)} {c : RT Q} (hc : c ∈ cs) :
    c.idList.length < (RT.mk r cs).idList.length := by
  rw [idList_mk]
  simp only [List.length_cons]
  have hsub := length_le_join c.idList (cs.map RT.idList) (List.mem_map_of_mem _ hc)
  omega

lemma RT.strongInduction {P : RT Q → Prop}
    (ih : ∀ rt : RT Q, (∀ c : RT Q, c.idList.length < rt.idList.length → P c) → P rt) :
    ∀ rt, P rt := by
  have key : ∀ n : ℕ, ∀ rt : RT Q, rt.idList.length ≤ n → P rt := by
    intro n
    induction n with
    | zero => intro rt h; have := idList_length_pos rt; omega
    | succ m ihm =>
      intro rt h
      exact ih rt (fun c hc => ihm c (by omega))
  exact fun rt => key rt.idList.length rt le_rfl

lemma get_node_mem {t : Tree Q T} {id : Q} {n : Node Q T}
    (h : get_node t id = some n) : n ∈ t.nodes ∧ n.node_id = id := by
  refine ⟨List.mem_of_find?_eq_some h, ?_⟩
  have := List.find?_some h
  simpa using this

lemma get_node_isSome_of_mem {t : Tree Q T} {n : Node Q T} (h : n ∈ t.nodes) :
    (get_node t n.node_id).isSome = true := by
  rw [get_node, List.find?_isSome]
  exact ⟨n, h, by simp⟩

lemma unfoldsList_mem {t : Tree Q T} {cs : List Q} {rcs : List (RT Q)}
    (h : UnfoldsList t cs rcs) : ∀ rc ∈ rcs, ∃ c ∈ cs, Unfolds t c rc := by
  induction cs generalizing rcs with
  | nil => cases h; intro rc hrc; cases hrc
  | cons c cs' ih =>
    cases h with
    | cons hu hrest =>
      intro rc hrc
      rcases List.mem_cons.mp hrc with h | h
      · subst h; exact ⟨c, List.mem_cons_self _ _, hu⟩
      · obtain ⟨c', hc', hu'⟩ := ih hrest rc h
        exact ⟨c', List.mem_cons_of_mem _ hc', hu'⟩

lemma unfoldsList_roots {t : Tree Q T} {cs : List Q} {rcs : List (RT Q)}
    (h : UnfoldsList t cs rcs) : rcs.map RT.rootId = cs := by
  induction cs generalizing rcs with
  | nil => cases h; rfl
  | cons c cs' ih =>
    cases h with
    | cons hu hrest => simp [unfolds_rootId hu, ih hrest]

lemma mem_idList_cases {t : Tree Q T} {id : Q} {rt : RT Q} (h : Unfolds t id rt)
    {q : Q} (hq : q ∈ rt.idList) :
    q = id ∨ ∃ node rts rc, get_node t id = some node ∧
      UnfoldsList t node.children rts ∧ rt = RT.mk id rts ∧
      rc ∈ rts ∧ q ∈ rc.idList := by
  cases h with
  | mk hget hlist =>
    rw [idList_mk] at hq
    rcases List.mem_cons.mp hq with h | h
    · exact Or.inl h
    · obtain ⟨l, hl, hql⟩ := List.mem_flatten.mp h
      obtain ⟨rc, hrc, rfl⟩ := List.mem_map.mp hl
      exact Or.inr ⟨_, _, rc, hget, hlist, rfl, hrc, hql⟩

lemma unfolds_idList_present {t : Tree Q T} :
    ∀ rt : RT Q, ∀ id : Q, Unfolds t id rt →
      ∀ q ∈ rt.idList, (get_node t q).isSome = true := by
  refine RT.strongInduction ?_
  intro rt ih id hu q hq
  rcases mem_idList_cases hu hq with rfl | ⟨node, rts, rc, hget, hlist, hrt, hrc, hql⟩
  · obtain ⟨n, hn⟩ := unfolds_get_node hu
    simp [hn]
  · obtain ⟨c, _, huc⟩ := unfoldsList_mem hlist rc hrc
    exact ih rc (by rw [hrt]; exact child_idList_sublength hrc) c huc q hql

lemma unfolds_depth_le {t : Tree Q T} (hwf : WF t) (d : Q → ℕ)
    (hd : ∀ n ∈ t.nodes, ∀ p, n.parent = some p → d p < d n.node_id) :
    ∀ rt : RT Q, ∀ id : Q, Unfolds t id rt → ∀ q ∈ rt.idList, d id ≤ d q := by
  refine RT.strongInduction ?_
  intro rt ih id hu q hq
  rcases mem_idList_cases hu hq with rfl | ⟨node, rts, rc, hget, hlist, hrt, hrc, hql⟩
  · exact le_rfl
  · obtain ⟨c, hc, huc⟩ := unfoldsList_mem hlist rc hrc
    have hstep : d id < d c := by
      obtain ⟨cn, hcn, hcp⟩ :=
        hwf.child_mem node (get_node_mem hget).1 c hc
      have hnodeid : node.node_id = id := (get_node_mem hget).2
      have := hd cn (get_node_mem hcn).1 node.node_id hcp
      rw [(get_node_mem hcn).2, hnodeid] at this
      exact this
    have := ih rc (by rw [hrt]; exact child_idList_sublength hrc) c huc q hql
    omega

/-- Ancestor-or-self chains through stored parent pointers. -/
inductive Anc (t : Tree Q T) : Q → Q → Prop where
  | refl (q : Q) : Anc t q q
  | step {q a p : Q} {n : Node Q T} :
      get_node t q = some n → n.parent = some p → Anc t p a → Anc t q a

lemma anc_depth_le {t : Tree Q T} (d : Q → ℕ)
    (hd : ∀ n ∈ t.nodes, ∀ p, n.parent = some p → d p < d n.node_id)
    {q a : Q} (h : Anc t q a) : d a ≤ d q := by
  induction h with
  | refl => exact le_rfl
  | step hget hp _ ih =>
    rename_i q' a' p' n' hanc
    have := hd n' (get_node_mem hget).1 p' hp
    rw [(get_node_mem hget).2] at this
    omega

lemma anc_snoc {t : Tree Q T} {q a p : Q} {n : Node Q T} (h : Anc t q a)
    (hget : get_node t a = some n) (hp : n.parent = some p) : Anc t q p := by
  induction h with
  | refl q' => exact Anc.step hget hp (Anc.refl p)
  | step hget' hp' _ ih => exact Anc.step hget' hp' (ih hget)

lemma unfolds_anc {t : Tree Q T} (hwf : WF t) :
    ∀ rt : RT Q, ∀ c : Q, Unfolds t c rt → ∀ q ∈ rt.idList, Anc t q c := by
  refine RT.strongInduction ?_
  intro rt ih c hu q hq
  rcases mem_idList_cases hu hq with rfl | ⟨node, rts, rc, hget, hlist, hrt, hrc, hql⟩
  · exact Anc.refl q
  · obtain ⟨c', hc', huc⟩ := unfoldsList_mem hlist rc hrc
    have hchain : Anc t q c' :=
      ih rc (by rw [hrt]; exact child_idList_sublength hrc) c' huc q hql
    obtain ⟨cn, hcn, hcp⟩ := hwf.child_mem node (get_node_mem hget).1 c' hc'
    have hnodeid : node.node_id = c := (get_node_mem hget).2
    exact anc_snoc hchain hcn (by rw [hcp, hnodeid])

lemma anc_linear {t : Tree Q T} {q a b : Q} (h₁ : Anc t q a) (h₂ : Anc t q b) :
    a = b ∨ Anc t a b ∨ Anc t b a := by
  induction h₁ generalizing b with
  | refl q' => exact Or.inr (Or.inl h₂)
  | step hget hp _ ih =>
    rename_i q' a' p' n' hanc
    cases h₂ with
    | refl => exact Or.inr (Or.inr (Anc.step hget hp hanc))
    | step hget' hp' hanc' =>
      have hm := Option.some.inj (hget.symm.trans hget')
      rw [← hm] at hp'
      have hpp := Option.some.inj (hp.symm.trans hp')
      rw [← hpp] at hanc'
      exact ih hanc' 

lemma unfolds_idList_nodup {t : Tree Q T} (hwf : WF t) :
    ∀ rt : RT Q, ∀ id : Q, Unfolds t id rt → rt.idList.Nodup := by
  obtain ⟨d, hd⟩ := hwf.acyclic
  refine RT.strongInduction ?_
  intro rt ih id hu
  cases hu with
  | mk hget hlist =>
    rename_i node rts
    have hnodeid : node.node_id = id := (get_node_mem hget).2
    have hmem : node ∈ t.nodes := (get_node_mem hget).1
    have hchildnd : node.children.Nodup := hwf.children_nodup node hmem
    have hchildstep : ∀ c ∈ node.children, d id < d c := by
      intro c hc
      obtain ⟨cn, hcn, hcp⟩ := hwf.child_mem node hmem c hc
      have := hd cn (get_node_mem hcn).1 id (by rw [hcp, hnodeid])
      rw [(get_node_mem hcn).2] at this
      exact this
    rw [idList_mk, List.nodup_cons]
    constructor
    · intro hidmem
      obtain ⟨l, hl, hql⟩ := List.mem_flatten.mp hidmem
      obtain ⟨rc, hrc, rfl⟩ := List.mem_map.mp hl
      obtain ⟨c, hc, huc⟩ := unfoldsList_mem hlist rc hrc
      have h1 : d c ≤ d id := unfolds_depth_le hwf d hd rc c huc id hql
      have h2 : d id < d c := hchildstep c hc
      omega
    · rw [List.nodup_flatten]
      constructor
      · intro l hl
        obtain ⟨rc, hrc, rfl⟩ := List.mem_map.mp hl
        obtain ⟨c, hc, huc⟩ := unfoldsList_mem hlist rc hrc
        exact ih rc (child_idList_sublength hrc) c huc
      · have hroots : rts.map RT.rootId = node.children := unfoldsList_roots hlist
        have hpw : rts.Pairwise (fun rc₁ rc₂ => rc₁.rootId ≠ rc₂.rootId) :=
          List.pairwise_map.mp
            ((hroots ▸ hchildnd : (rts.map RT.rootId).Nodup))
        have hdis : ∀ rc₁ ∈ rts, ∀ rc₂ ∈ rts, rc₁.rootId ≠ rc₂.rootId →
            ∀ q, q ∈ rc₁.idList → q ∈ rc₂.idList → False := by
          intro rc₁ h₁ rc₂ h₂ hne q hq₁ hq₂
          obtain ⟨c₁, hc₁, hu₁⟩ := unfoldsList_mem hlist rc₁ h₁
          obtain ⟨c₂, hc₂, hu₂⟩ := unfoldsList_mem hlist rc₂ h₂
          have hr₁ : rc₁.rootId = c₁ := unfolds_rootId hu₁
          have hr₂ : rc₂.rootId = c₂ := unfolds_rootId hu₂
          have ha₁ : Anc t q c₁ := unfolds_anc hwf rc₁ c₁ hu₁ q hq₁
          have ha₂ : Anc t q c₂ := unfolds_anc hwf rc₂ c₂ hu₂ q hq₂
          have hcne : c₁ ≠ c₂ := by rw [← hr₁, ← hr₂]; exact hne
          have key : ∀ x y : Q, x ∈ node.children → y ∈ node.children →
              x ≠ y → Anc t x y → False := by
            intro x y hx hy hxy haxy
            obtain ⟨xn, hxn, hxp⟩ := hwf.child_mem node hmem x hx
            cases haxy with
            | refl => exact hxy rfl
            | step hget' hp' hanc' =>
              have hm := Option.some.inj (hxn.symm.trans hget')
              rw [← hm] at hp'
              have hpp := Option.some.inj (hxp.symm.trans hp')
              rw [← hpp, hnodeid] at hanc'
              have h1 : d y ≤ d id := anc_depth_le d hd hanc'
              have h2 : d id < d y := hchildstep y hy
              omega
          rcases anc_linear ha₁ ha₂ with h | h | h
          · exact hcne h
          · exact key c₁ c₂ hc₁ hc₂ hcne h
          · exact key c₂ c₁ hc₂ hc₁ (Ne.symm hcne) h
        rw [List.pairwise_map]
        refine hpw.imp_of_mem ?_
        intro rc₁ rc₂ h₁ h₂ hne
        intro q hq₁ hq₂
        exact hdis rc₁ h₁ rc₂ h₂ hne q hq₁ hq₂

lemma unfolds_size_le {t : Tree Q T} {id : Q} {rt : RT Q}
    (hu : Unfolds t id rt) (hnd : rt.idList.Nodup) :
    rt.idList.length ≤ t.nodes.length := by
  have hsub : rt.idList ⊆ t.nodes.map Node.node_id := by
    intro q hq
    have := unfolds_idList_present rt id hu q hq
    obtain ⟨n, hn⟩ := Option.isSome_iff_exists.mp this
    rw [List.mem_map]
    exact ⟨n, (get_node_mem hn).1, (get_node_mem hn).2⟩
  have := (hnd.subperm hsub).length_le
  simpa using this

/-! ## Traversal (`Tree::traverse`, `tree.rs` lines 526–562) -/

/-- The dedup pass at the end of every `traverse` call (`tree.rs` lines
559–561): retain exactly the elements whose insertion into the `seen`
set succeeds, i.e. keep the first occurrence of every id. -/
def dedup_first_aux (seen : List Q) : List Q → List Q
  | [] => []
  | x :: xs =>
    if x ∈ seen then dedup_first_aux seen xs
    else x :: dedup_first_aux (x :: seen) xs

def dedup_first (l : List Q) : List Q := dedup_first_aux [] l

inductive TraversalStrategy where
  | PreOrder : TraversalStrategy
  | PostOrder : TraversalStrategy
  | InOrder : TraversalStrategy
deriving DecidableEq

/-- The sequential collection of an Option-valued walk over a list:
the shape of every `for child in children` loop whose body can panic.
A `none` (panic) aborts the whole walk, as in the source. -/
def map_option {α β : Type} (f : α → Option β) : List α → Option (List β)
  | [] => some []
  | x :: xs => (f x).bind (fun b => (map_option f xs).map (fun bs => b :: bs))

/-- `Tree::traverse`, fuelled.  Each call looks the start node up
(panic if absent), builds the order-dependent sequence — recursing into
children through the store — and finishes with the seen-set dedup. -/
def traverse_aux (t : Tree Q T) (order : TraversalStrategy) : ℕ → Q → Option (List Q)
  | 0, _ => none
  | fuel + 1, node_id =>
    match get_node t node_id with
    | none => none
    | some node =>
      match order with
      | .PreOrder =>
        (map_option (traverse_aux t order fuel) node.children).map
          (fun ls => dedup_first (node_id :: ls.flatten))
      | .PostOrder =>
        (map_option (traverse_aux t order fuel) node.children).map
          (fun ls => dedup_first (ls.flatten ++ [node_id]))
      | .InOrder =>
        match node.children with
        | [] => some (dedup_first [])
        | c0 :: rest =>
          (traverse_aux t order fuel c0).bind (fun l0 =>
            let l1 := if c0 ∈ l0 then l0 else l0 ++ [c0]
            let l2 := if node_id ∈ l1 then l1 else l1 ++ [node_id]
            (map_option (fun c => (traverse_aux t order fuel c).map (fun lc => c :: lc)) rest).map
              (fun ls => dedup_first (l2 ++ ls.flatten)))

/-- `Tree::traverse` with enough fuel for any well-formed tree. -/
def traverse (t : Tree Q T) (order : TraversalStrategy) (node_id : Q) : Option (List Q) :=
  traverse_aux t order (t.nodes.length + 1) node_id

/-- PreOrder on the unfolded subtree: the node, then each child's
traversal in stored child order (every level ends with the dedup pass,
as in the code). -/
def pre_rt : RT Q → List Q
  | .mk r cs => dedup_first (r :: (cs.attach.map (fun c => pre_rt c.1)).flatten)
termination_by rt => sizeOf rt
decreasing_by
  simp only [RT.mk.sizeOf_spec]
  have := List.sizeOf_lt_of_mem c.2
  omega

/-- PostOrder on the unfolded subtree: each child's traversal in order,
then the node. -/
def post_rt : RT Q → List Q
  | .mk r cs => dedup_first ((cs.attach.map (fun c => post_rt c.1)).flatten ++ [r])
termination_by rt => sizeOf rt
decreasing_by
  simp only [RT.mk.sizeOf_spec]
  have := List.sizeOf_lt_of_mem c.2
  omega

/-- Generalized n-ary InOrder on the unfolded subtree: recurse into the
first child, then emit that child's id and the node's id (each only if
not already emitted); for every later child emit its id and then
recurse into it; finish with the dedup pass. -/
def ino_rt : RT Q → List Q
  | .mk _ [] => []
  | .mk r (c0 :: rest) =>
    let l0 := ino_rt c0
    let l1 := if c0.rootId ∈ l0 then l0 else l0 ++ [c0.rootId]
    let l2 := if r ∈ l1 then l1 else l1 ++ [r]
    dedup_first (l2 ++ (rest.attach.map (fun c => c.1.rootId :: ino_rt c.1)).flatten)
termination_by rt => sizeOf rt
decreasing_by
  · simp only [RT.mk.sizeOf_spec, List.cons.sizeOf_spec]
    omega
  · simp only [RT.mk.sizeOf_spec, List.cons.sizeOf_spec]
    have := List.sizeOf_lt_of_mem c.2
    omega

lemma pre_rt_mk (r : Q) (cs : List (RT Q)) :
    pre_rt (RT.mk r cs) = dedup_first (r :: (cs.map pre_rt).flatten) := by
  rw [pre_rt, attach_map_fn]

lemma post_rt_mk (r : Q) (cs : List (RT Q)) :
    post_rt (RT.mk r cs) = dedup_first ((cs.map post_rt).flatten ++ [r]) := by
  rw [post_rt, attach_map_fn]

lemma ino_rt_cons (r : Q) (c0 : RT Q) (rest : List (RT Q)) :
    ino_rt (RT.mk r (c0 :: rest)) =
      (let l0 := ino_rt c0
       let l1 := if c0.rootId ∈ l0 then l0 else l0 ++ [c0.rootId]
       let l2 := if r ∈ l1 then l1 else l1 ++ [r]
       dedup_first (l2 ++ (rest.map (fun c => c.rootId :: ino_rt c)).flatten)) := by
  rw [ino_rt]
  have hm : rest.attach.map (fun c => c.1.rootId :: ino_rt c.1)
      = rest.map (fun c => c.rootId :: ino_rt c) := by
    rw [← attach_map_fn rest (fun c => c.rootId :: ino_rt c)]
  rw [hm]

lemma mapM_traverse_gen (t : Tree Q T) (order : TraversalStrategy)
    (f : RT Q → List Q) (fuel : ℕ) :
    ∀ cs : List Q, ∀ rcs : List (RT Q), UnfoldsList t cs rcs →
    (∀ rt : RT Q, ∀ id : Q, rt ∈ rcs → Unfolds t id rt → rt.idList.length ≤ fuel →
      traverse_aux t order fuel id = some (f rt)) →
    (∀ rc ∈ rcs, rc.idList.length ≤ fuel) →
    map_option (traverse_aux t order fuel) cs = some (rcs.map f) := by
  intro cs
  induction cs with
  | nil => intro rcs h _ _; cases h; rfl
  | cons c cs' ih =>
    intro rcs h hIH hlen
    cases h with
    | cons hu hrest =>
      rename_i rc rcs'
      have h1 : traverse_aux t order fuel c = some (f rc) :=
        hIH rc c (List.mem_cons_self _ _) hu (hlen rc (List.mem_cons_self _ _))
      have h2 := ih rcs' hrest
        (fun rt id hmem => hIH rt id (List.mem_cons_of_mem _ hmem))
        (fun rc' hmem => hlen rc' (List.mem_cons_of_mem _ hmem))
      simp [map_option, h1, h2]

lemma mapM_traverse_ino (t : Tree Q T) (fuel : ℕ) :
    ∀ cs : List Q, ∀ rcs : List (RT Q), UnfoldsList t cs rcs →
    (∀ rt : RT Q, ∀ id : Q, rt ∈ rcs → Unfolds t id rt → rt.idList.length ≤ fuel →
      traverse_aux t .InOrder fuel id = some (ino_rt rt)) →
    (∀ rc ∈ rcs, rc.idList.length ≤ fuel) →
    map_option (fun c => (traverse_aux t .InOrder fuel c).map (fun lc => c :: lc)) cs
      = some (rcs.map (fun rc => rc.rootId :: ino_rt rc)) := by
  intro cs
  induction cs with
  | nil => intro rcs h _ _; cases h; rfl
  | cons c cs' ih =>
    intro rcs h hIH hlen
    cases h with
    | cons hu hrest =>
      rename_i rc rcs'
      have h1 : traverse_aux t .InOrder fuel c = some (ino_rt rc) :=
        hIH rc c (List.mem_cons_self _ _) hu (hlen rc (List.mem_cons_self _ _))
      have h2 := ih rcs' hrest
        (fun rt id hmem => hIH rt id (List.mem_cons_of_mem _ hmem))
        (fun rc' hmem => hlen rc' (List.mem_cons_of_mem _ hmem))
      simp [map_option, h1, h2, unfolds_rootId hu]

lemma child_len_le {id : Q} {rts : List (RT Q)} {m : ℕ}
    (hlen : (RT.mk id rts).idList.length ≤ m + 1) :
    ∀ rc ∈ rts, rc.idList.length ≤ m := by
  intro rc hrc
  have := child_idList_sublength (r := id) hrc
  omega

lemma traverse_aux_pre (t : Tree Q T) :
    ∀ fuel : ℕ, ∀ rt : RT Q, ∀ id : Q, Unfolds t id rt →
      rt.idList.length ≤ fuel →
      traverse_aux t .PreOrder fuel id = some (pre_rt rt) := by
  intro fuel
  induction fuel with
  | zero => intro rt id _ hlen; have := idList_length_pos rt; omega
  | succ m ih =>
    intro rt id hu hlen
    cases hu with
    | mk hget hlist =>
      rename_i node rts
      have hmm := mapM_traverse_gen t .PreOrder pre_rt m node.children rts hlist
        (fun rt' id' _ hu' hlen' => ih rt' id' hu' hlen')
        (child_len_le hlen)
      simp [traverse_aux, hget, hmm, pre_rt_mk]

lemma traverse_aux_post (t : Tree Q T) :
    ∀ fuel : ℕ, ∀ rt : RT Q, ∀ id : Q, Unfolds t id rt →
      rt.idList.length ≤ fuel →
      traverse_aux t .PostOrder fuel id = some (post_rt rt) := by
  intro fuel
  induction fuel with
  | zero => intro rt id _ hlen; have := idList_length_pos rt; omega
  | succ m ih =>
    intro rt id hu hlen
    cases hu with
    | mk hget hlist =>
      rename_i node rts
      have hmm := mapM_traverse_gen t .PostOrder post_rt m node.children rts hlist
        (fun rt' id' _ hu' hlen' => ih rt' id' hu' hlen')
        (child_len_le hlen)
      simp [traverse_aux, hget, hmm, post_rt_mk]

lemma traverse_aux_ino (t : Tree Q T) :
    ∀ fuel : ℕ, ∀ rt : RT Q, ∀ id : Q, Unfolds t id rt →
      rt.idList.length ≤ fuel →
      traverse_aux t .InOrder fuel id = some (ino_rt rt) := by
  intro fuel
  induction fuel with
  | zero => intro rt id _ hlen; have := idList_length_pos rt; omega
  | succ m ih =>
    intro rt id hu hlen
    cases hu with
    | mk hget hlist =>
      rename_i node rts
      generalize hch : node.children = chs at hlist
      cases hlist with
      | nil =>
        simp only [traverse_aux, hget, hch]
        rw [show ino_rt (RT.mk id []) = [] from by rw [ino_rt]]
        rfl
      | cons hu0 hrest =>
        rename_i c0 rc0 rest rrest
        have hlen' : (RT.mk id (rc0 :: rrest)).idList.length ≤ m + 1 := hlen
        have hc0len : rc0.idList.length ≤ m :=
          child_len_le hlen' rc0 (List.mem_cons_self _ _)
        have h0 : traverse_aux t .InOrder m c0 = some (ino_rt rc0) :=
          ih rc0 c0 hu0 hc0len
        have hmm := mapM_traverse_ino t m rest rrest hrest
          (fun rt' id' _ hu' hlen'' => ih rt' id' hu' hlen'')
          (fun rc hmem => child_len_le hlen' rc (List.mem_cons_of_mem _ hmem))
        have hr0 : rc0.rootId = c0 := unfolds_rootId hu0
        simp only [traverse_aux, hget, hch, h0, Option.some_bind, Option.bind_some, hmm,
          Option.map_some, ino_rt_cons, hr0]
        rfl

/-- The traversal example tree of §8: edges 1→2, 1→3, 2→4, 2→5, 3→6
added in that order. -/
def example_tree : Tree ℕ ℕ :=
  add_nodes Tree.new
    [(Node.new 1 1, none), (Node.new 2 2, some 1), (Node.new 3 3, some 1),
     (Node.new 4 4, some 2), (Node.new 5 5, some 2), (Node.new 6 6, some 3)]

lemma wf_single (q : Q) (v : T) : WF (⟨[Node.new q v]⟩ : Tree Q T) := by
  constructor
  · simp
  · intro n hn p hp
    simp only [List.mem_singleton] at hn
    subst hn
    simp [Node.new] at hp
  · intro n hn c hc
    simp only [List.mem_singleton] at hn
    subst hn
    simp [Node.new] at hc
  · intro n hn
    simp only [List.mem_singleton] at hn
    subst hn
    simp [Node.new]
  · refine ⟨fun _ => 0, ?_⟩
    intro n hn p hp
    simp only [List.mem_singleton] at hn
    subst hn
    simp [Node.new] at hp

/-- C6: on every well-formed tree, `traverse` computes, for the
subtree unfolding at the start id, the PreOrder / PostOrder /
generalized-InOrder linearizations (each with the final first-occurrence
dedup pass), and on the §8 example tree (edges 1→2, 1→3, 2→4, 2→5, 3→6
added in that order) it yields exactly the three listed sequences. -/
theorem traverse_spec (t : Tree Q T) (hwf : WF t) (id : Q) (rt : RT Q)
    (hu : Unfolds t id rt) :
    (traverse t TraversalStrategy.PreOrder id = some (pre_rt rt) ∧
     traverse t TraversalStrategy.PostOrder id = some (post_rt rt) ∧
     traverse t TraversalStrategy.InOrder id = some (ino_rt rt)) ∧
    (traverse example_tree TraversalStrategy.PreOrder 1 = some [1, 2, 4, 5, 3, 6] ∧
     traverse example_tree TraversalStrategy.PostOrder 1 = some [4, 5, 2, 6, 3, 1] ∧
     traverse example_tree TraversalStrategy.InOrder 1 = some [4, 2, 5, 1, 3, 6]) := by
  have hnd := unfolds_idList_nodup hwf rt id hu
  have hsize := unfolds_size_le hu hnd
  have hfuel : rt.idList.length ≤ t.nodes.length + 1 := by omega
  exact ⟨⟨traverse_aux_pre t _ rt id hu hfuel, traverse_aux_post t _ rt id hu hfuel,
    traverse_aux_ino t _ rt id hu hfuel⟩, by decide, by decide, by decide⟩

/-- Witness for C6: a concrete one-node tree discharging the
well-formedness and unfolding hypotheses. -/
theorem traverse_spec_witness :
    traverse (⟨[Node.new 1 2]⟩ : Tree ℕ ℕ) TraversalStrategy.PreOrder 1
      = some (pre_rt (RT.mk 1 [])) :=
  (traverse_spec (⟨[Node.new 1 2]⟩ : Tree ℕ ℕ) (wf_single 1 2) 1 (RT.mk 1 [])
    (Unfolds.mk rfl UnfoldsList.nil)).1.1

/-! ## Metrics: node height and tree height (`tree.rs` lines 209–223, 286–289) -/

/-- `Tree::get_node_height`, fuelled: unwrap the node (panic if
absent); 0 if it has no children, else fold the children's heights with
`if child_height > height` starting from 0 and add 1. -/
def get_node_height_aux (t : Tree Q T) : ℕ → Q → Option Int
  | 0, _ => none
  | fuel + 1, id =>
    match get_node t id with
    | none => none
    | some node =>
      if node.children.isEmpty then some 0
      else
        (map_option (get_node_height_aux t fuel) node.children).map
          (fun hs => hs.foldl (fun height ch => if ch > height then ch else height) 0 + 1)

/-- `Tree::get_node_height` with enough fuel for any well-formed tree. -/
def get_node_height (t : Tree Q T) (id : Q) : Option Int :=
  get_node_height_aux t (t.nodes.length + 1) id

/-- `Tree::get_height`: unwrap the root (panic on an empty store) and
take its node height. -/
def get_height (t : Tree Q T) : Option Int :=
  match get_root_node t with
  | none => none
  | some root => get_node_height t root.node_id

/-- Height of the unfolded subtree, mirroring the recursion of
`get_node_height`. -/
def height_rt : RT Q → Int
  | .mk _ cs =>
    if cs.isEmpty then 0
    else (cs.attach.map (fun c => height_rt c.1)).foldl
      (fun height ch => if ch > height then ch else height) 0 + 1
termination_by rt => sizeOf rt
decreasing_by
  simp only [RT.mk.sizeOf_spec]
  have := List.sizeOf_lt_of_mem c.2
  omega

lemma height_rt_mk (r : Q) (cs : List (RT Q)) :
    height_rt (RT.mk r cs) =
      if cs.isEmpty then 0
      else (cs.map height_rt).foldl (fun height ch => if ch > height then ch else height) 0 + 1 := by
  rw [height_rt, attach_map_fn]

lemma map_option_unfolds {β : Type} (t : Tree Q T) (g : Q → Option β) (f : RT Q → β) :
    ∀ cs : List Q, ∀ rcs : List (RT Q), UnfoldsList t cs rcs →
      (∀ rt : RT Q, ∀ c : Q, rt ∈ rcs → Unfolds t c rt → g c = some (f rt)) →
      map_option g cs = some (rcs.map f) := by
  intro cs
  induction cs with
  | nil => intro rcs h _; cases h; rfl
  | cons c cs' ih =>
    intro rcs h hIH
    cases h with
    | cons hu hrest =>
      rename_i rc rcs'
      have h1 : g c = some (f rc) := hIH rc c (List.mem_cons_self _ _) hu
      have h2 := ih rcs' hrest (fun rt c' hmem => hIH rt c' (List.mem_cons_of_mem _ hmem))
      simp [map_option, h1, h2]

lemma if_gt_eq_max (height ch : Int) : (if ch > height then ch else height) = max height ch := by
  split <;> omega

lemma foldl_max_le_mem (l : List Int) :
    ∀ a : Int, (∀ x ∈ l, x ≤ l.foldl max a) ∧ a ≤ l.foldl max a := by
  induction l with
  | nil => intro a; exact ⟨by simp, le_rfl⟩
  | cons x xs ih =>
    intro a
    have h := ih (max a x)
    refine ⟨?_, ?_⟩
    · intro y hy
      rcases List.mem_cons.mp hy with rfl | hy
      · exact le_trans (le_max_right a y) h.2
      · exact h.1 y hy
    · exact le_trans (le_max_left a x) h.2

lemma foldl_max_mem (l : List Int) :
    ∀ a : Int, l.foldl max a ∈ l ∨ l.foldl max a = a := by
  induction l with
  | nil => intro a; exact Or.inr rfl
  | cons x xs ih =>
    intro a
    rcases ih (max a x) with h | h
    · exact Or.inl (List.mem_cons_of_mem _ h)
    · rcases max_cases a x with ⟨he, _⟩ | ⟨he, _⟩
      · exact Or.inr (by simp only [List.foldl_cons]; rw [h, he])
      · exact Or.inl (by simp only [List.foldl_cons]; rw [h, he]; exact List.mem_cons_self _ _)

lemma foldl_if_gt_eq_foldl_max (l : List Int) (a : Int) :
    l.foldl (fun height ch => if ch > height then ch else height) a = l.foldl max a := by
  induction l generalizing a with
  | nil => rfl
  | cons x xs ih => simp only [List.foldl_cons, if_gt_eq_max, ih]

lemma foldl_max_zero_mem (l : List Int) (hne : l ≠ []) (hnn : ∀ x ∈ l, 0 ≤ x) :
    l.foldl max 0 ∈ l := by
  rcases foldl_max_mem l 0 with h | h
  · exact h
  · cases l with
    | nil => exact absurd rfl hne
    | cons x xs =>
      have hxle : x ≤ (x :: xs).foldl max 0 :=
        (foldl_max_le_mem _ 0).1 x (List.mem_cons_self _ _)
      have hx0 : 0 ≤ x := hnn x (List.mem_cons_self _ _)
      rw [h] at hxle
      have hx : x = 0 := le_antisymm hxle hx0
      rw [h, ← hx]
      exact List.mem_cons_self _ _

lemma height_rt_nonneg : ∀ rt : RT Q, 0 ≤ height_rt rt := by
  intro rt
  cases rt with
  | mk r cs =>
    rw [height_rt_mk]
    split
    · exact le_rfl
    · have := (foldl_max_le_mem (cs.map height_rt) 0).2
      rw [foldl_if_gt_eq_foldl_max]
      omega

lemma get_node_height_aux_eq (t : Tree Q T) :
    ∀ fuel : ℕ, ∀ rt : RT Q, ∀ id : Q, Unfolds t id rt →
      rt.idList.length ≤ fuel →
      get_node_height_aux t fuel id = some (height_rt rt) := by
  intro fuel
  induction fuel with
  | zero => intro rt id _ hlen; have := idList_length_pos rt; omega
  | succ m ih =>
    intro rt id hu hlen
    cases hu with
    | mk hget hlist =>
      rename_i node rts
      have hroots : rts.map RT.rootId = node.children := unfoldsList_roots hlist
      have hmm := map_option_unfolds t (get_node_height_aux t m) height_rt
        node.children rts hlist
        (fun rt' c hmem hu' => ih rt' c hu' (by
          have := child_idList_sublength (r := id) hmem
          omega))
      simp only [get_node_height_aux, hget, hmm, Option.map_some, height_rt_mk]
      have hlenq : node.children.isEmpty = rts.isEmpty := by
        rw [← hroots]
        cases rts <;> rfl
      rw [hlenq]
      cases hrts : rts with
      | nil => rfl
      | cons a l => simp

/-- C8: on every well-formed tree, `get_node_height` of a stored node
is 0 when the node has no children and otherwise 1 plus the maximum of
`get_node_height` over its children (all child heights are defined and
nonnegative, the fold `max` over them starting at 0 is attained by and
bounds every child height, so it is their maximum); and whenever a root
exists, `get_height()` is `get_node_height` of the root's id. -/
theorem get_node_height_spec (t : Tree Q T) (hwf : WF t) (id : Q) (rt : RT Q)
    (hu : Unfolds t id rt) (node : Node Q T) (hget : get_node t id = some node) :
    (node.children = [] → get_node_height t id = some 0) ∧
    (node.children ≠ [] →
      ∃ hs : List Int, map_option (get_node_height t) node.children = some hs ∧
        get_node_height t id = some (hs.foldl max 0 + 1) ∧
        (∀ h ∈ hs, 0 ≤ h) ∧ (∀ h ∈ hs, h ≤ hs.foldl max 0) ∧ hs.foldl max 0 ∈ hs) ∧
    (∀ root, get_root_node t = some root →
      get_height t = get_node_height t root.node_id) := by
  have hnd := unfolds_idList_nodup hwf rt id hu
  have hsize := unfolds_size_le hu hnd
  cases hu with
  | mk hget' hlist =>
    rename_i node' rts
    have hnode : node' = node := by rw [hget'] at hget; exact Option.some.inj hget
    rw [hnode] at hget' hlist
    refine ⟨?_, ?_, ?_⟩
    · intro hch
      rw [get_node_height]
      simp only [get_node_height_aux, hget', hch]
      rfl
    · intro hch
      have hchildfuel : ∀ rc ∈ rts, ∀ c, Unfolds t c rc →
          get_node_height t c = some (height_rt rc) := by
        intro rc hmem c huc
        rw [get_node_height]
        refine get_node_height_aux_eq t _ rc c huc ?_
        have := child_idList_sublength (r := id) hmem
        rw [idList_mk] at hsize
        simp only [List.length_cons] at hsize
        rw [idList_mk] at this
        simp only [List.length_cons] at this
        omega
      have hmm := map_option_unfolds t (get_node_height t) height_rt
        node.children rts hlist
        (fun rt' c hmem hu' => hchildfuel rt' hmem c hu')
      refine ⟨rts.map height_rt, hmm, ?_, ?_, ?_, ?_⟩
      · have := get_node_height_aux_eq t (t.nodes.length + 1)
          (RT.mk id rts) id (Unfolds.mk hget' hlist) (by omega)
        rw [get_node_height, this, height_rt_mk]
        have hne : rts.isEmpty = false := by
          have hroots : rts.map RT.rootId = node.children := unfoldsList_roots hlist
          cases hr : rts with
          | nil => rw [hr] at hroots; simp at hroots; exact absurd hroots hch
          | cons a l => rfl
        rw [hne]
        simp only [Bool.false_eq_true, if_false, foldl_if_gt_eq_foldl_max]
      · intro h hh
        obtain ⟨rc, _, rfl⟩ := List.mem_map.mp hh
        exact height_rt_nonneg rc
      · intro h hh
        exact (foldl_max_le_mem (rts.map height_rt) 0).1 h hh
      · have hne : rts.map height_rt ≠ [] := by
          intro hcontra
          have hroots : rts.map RT.rootId = node.children := unfoldsList_roots hlist
          rw [List.map_eq_nil_iff] at hcontra
          rw [hcontra] at hroots
          simp at hroots
          exact hch hroots
        refine foldl_max_zero_mem _ hne ?_
        intro h hh
        obtain ⟨rc, _, rfl⟩ := List.mem_map.mp hh
        exact height_rt_nonneg rc
    · intro root hroot
      simp [get_height, hroot]

/-- Witness for C8: the one-node tree, whose only node is a leaf of
height 0. -/
theorem get_node_height_spec_witness :
    get_node_height (⟨[Node.new 1 2]⟩ : Tree ℕ ℕ) 1 = some 0 :=
  (get_node_height_spec (⟨[Node.new 1 2]⟩ : Tree ℕ ℕ) (wf_single 1 2) 1 (RT.mk 1 [])
    (Unfolds.mk rfl UnfoldsList.nil) (Node.new 1 2) rfl).1 rfl

/-! ## Subtree extraction (`Tree::get_subtree`, `tree.rs` lines 439–464) -/

/-- The `generations = None` branch of `get_subtree`, fuelled: push the
node if found (an absent id yields an empty subsection, not a panic),
then append every child's full subtree recursively. -/
def get_subtree_all_aux (t : Tree Q T) : ℕ → Q → Option (List (Node Q T))
  | 0, _ => none
  | fuel + 1, id =>
    match get_node t id with
    | none => some []
    | some node =>
      (map_option (get_subtree_all_aux t fuel) node.children).map
        (fun ls => node :: ls.flatten)

/-- The `generations = Some g` branch of `get_subtree`: push the node
if found, then for every `current_generation` in `0..g` and every child
(in that loop order) append `get_subtree(child, Some(current_generation))`.
The recursion strictly decreases the generation bound, here made
structural through a fuel argument that exceeds the bound. -/
def get_subtree_gen_aux (t : Tree Q T) : ℕ → ℕ → Q → List (Node Q T)
  | 0, _, _ => []
  | fuel + 1, g, id =>
    match get_node t id with
    | none => []
    | some node =>
      node :: ((List.range g).map (fun cg =>
        (node.children.map (fun c => get_subtree_gen_aux t fuel cg c)).flatten)).flatten

/-- `Tree::get_subtree`.  Negative generation counts run the `0..g`
loop zero times, exactly like the source's `i32` range. -/
def get_subtree (t : Tree Q T) (node_id : Q) (generations : Option Int) :
    Option (Tree Q T) :=
  match generations with
  | some g => some ⟨get_subtree_gen_aux t (g.toNat + 1) g.toNat node_id⟩
  | none => (get_subtree_all_aux t (t.nodes.length + 1) node_id).map (fun l => (⟨l⟩ : Tree Q T))

lemma gen_aux_fuel_eq (t : Tree Q T) :
    ∀ g : ℕ, ∀ f₁ f₂ : ℕ, g < f₁ → g < f₂ → ∀ id : Q,
      get_subtree_gen_aux t f₁ g id = get_subtree_gen_aux t f₂ g id := by
  intro g
  induction g using Nat.strong_induction_on with
  | _ g ih =>
    intro f₁ f₂ h₁ h₂ id
    cases f₁ with
    | zero => omega
    | succ m₁ =>
      cases f₂ with
      | zero => omega
      | succ m₂ =>
        simp only [get_subtree_gen_aux]
        cases hget : get_node t id with
        | none => rfl
        | some node =>
          refine congrArg (fun ls => node :: List.flatten ls) ?_
          refine List.map_congr_left ?_
          intro cg hcg
          have hcglt : cg < g := List.mem_range.mp hcg
          refine congrArg List.flatten ?_
          refine List.map_congr_left ?_
          intro c _
          exact ih cg hcglt m₁ m₂ (by omega) (by omega) c

lemma subtree_children_collect (t : Tree Q T) (fuel : ℕ)
    (IH : ∀ rt : RT Q, ∀ id : Q, Unfolds t id rt → rt.idList.length ≤ fuel →
      ∃ l, get_subtree_all_aux t fuel id = some l ∧
        l.map Node.node_id = rt.idList ∧ ∀ n ∈ l, get_node t n.node_id = some n) :
    ∀ cs : List Q, ∀ rcs : List (RT Q), UnfoldsList t cs rcs →
      (∀ rc ∈ rcs, rc.idList.length ≤ fuel) →
      ∃ ls : List (List (Node Q T)),
        map_option (get_subtree_all_aux t fuel) cs = some ls ∧
        ls.map (List.map Node.node_id) = rcs.map RT.idList ∧
        ∀ l ∈ ls, ∀ n ∈ l, get_node t n.node_id = some n := by
  intro cs
  induction cs with
  | nil =>
    intro rcs h _
    cases h
    exact ⟨[], rfl, rfl, by intro l hl; cases hl⟩
  | cons c cs' ih =>
    intro rcs h hlen
    cases h with
    | cons hu hrest =>
      rename_i rc rcs'
      obtain ⟨l, hl, hlid, hlget⟩ := IH rc c hu (hlen rc (List.mem_cons_self _ _))
      obtain ⟨ls, hls, hlsid, hlsget⟩ := ih rcs' hrest
        (fun rc' hmem => hlen rc' (List.mem_cons_of_mem _ hmem))
      refine ⟨l :: ls, ?_, ?_, ?_⟩
      · simp [map_option, hl, hls]
      · simp [hlid, hlsid]
      · intro l' hl' n hn
        rcases List.mem_cons.mp hl' with rfl | hl'
        · exact hlget n hn
        · exact hlsget l' hl' n hn

lemma get_subtree_all_aux_eq (t : Tree Q T) :
    ∀ fuel : ℕ, ∀ rt : RT Q, ∀ id : Q, Unfolds t id rt →
      rt.idList.length ≤ fuel →
      ∃ l, get_subtree_all_aux t fuel id = some l ∧
        l.map Node.node_id = rt.idList ∧ ∀ n ∈ l, get_node t n.node_id = some n := by
  intro fuel
  induction fuel with
  | zero => intro rt id _ hlen; have := idList_length_pos rt; omega
  | succ m ih =>
    intro rt id hu hlen
    cases hu with
    | mk hget hlist =>
      rename_i node rts
      obtain ⟨ls, hls, hlsid, hlsget⟩ := subtree_children_collect t m ih
        node.children rts hlist
        (fun rc hmem => by
          have := child_idList_sublength (r := id) hmem
          omega)
      refine ⟨node :: ls.flatten, ?_, ?_, ?_⟩
      · simp [get_subtree_all_aux, hget, hls]
      · rw [idList_mk]
        simp only [List.map_cons, (get_node_mem hget).2, List.cons.injEq, true_and]
        rw [List.map_flatten, hlsid]
      · intro n hn
        rcases List.mem_cons.mp hn with rfl | hn
        · rw [(get_node_mem hget).2]; exact hget
        · obtain ⟨l, hl, hnl⟩ := List.mem_flatten.mp hn
          exact hlsget l hl n hnl

/-- A three-node chain 1→2→3, used to exhibit the duplication of the
generation-bounded `get_subtree` recurrence at `g = 2`. -/
def chain_tree : Tree ℕ ℕ :=
  add_nodes Tree.new [(Node.new 1 1, none), (Node.new 2 2, some 1), (Node.new 3 3, some 2)]

/-- C7: on every well-formed tree, `get_subtree(id, None)` collects the
node at `id` plus every transitive descendant exactly once (its node
list projects to the duplicate-free preorder id list of the subtree
unfolding, every entry being the stored node); `get_subtree(id, Some 0)`
is just the node; for `g > 0`, `get_subtree(id, Some g)`'s node list is
the node followed by, for each `current_generation` in `0..g` in order
and each child in stored order, the node list of
`get_subtree(child, Some current_generation)`; and on the chain
1→2→3 this recurrence repeats node 2 at `g = 2`. -/
theorem get_subtree_spec (t : Tree Q T) (hwf : WF t) (id : Q) (rt : RT Q)
    (hu : Unfolds t id rt) (node : Node Q T) (hget : get_node t id = some node)
    (g : Int) (hg : 0 < g) :
    (∃ st : Tree Q T, get_subtree t id none = some st ∧
      st.nodes.map Node.node_id = rt.idList ∧ rt.idList.Nodup ∧
      ∀ n ∈ st.nodes, get_node t n.node_id = some n) ∧
    get_subtree t id (some 0) = some ⟨[node]⟩ ∧
    (∃ f : ℕ → Q → List (Node Q T),
      (∀ cg : ℕ, ∀ c : Q, get_subtree t c (some (cg : Int)) = some ⟨f cg c⟩) ∧
      get_subtree t id (some g) = some ⟨node ::
        ((List.range g.toNat).map (fun cg =>
          (node.children.map (fun c => f cg c)).flatten)).flatten⟩) ∧
    ((get_subtree chain_tree 1 (some 2)).map (fun st => st.nodes.map Node.node_id)
      = some [1, 2, 2, 3]) := by
  have hnd := unfolds_idList_nodup hwf rt id hu
  have hsize := unfolds_size_le hu hnd
  refine ⟨?_, ?_, ?_, by decide⟩
  · obtain ⟨l, hl, hlid, hlget⟩ :=
      get_subtree_all_aux_eq t (t.nodes.length + 1) rt id hu (by omega)
    exact ⟨⟨l⟩, by simp [get_subtree, hl], hlid, hnd, hlget⟩
  · have h0 : ((0 : Int).toNat) = 0 := rfl
    simp [get_subtree, h0, get_subtree_gen_aux, hget]
  · refine ⟨fun cg c => get_subtree_gen_aux t (cg + 1) cg c, ?_, ?_⟩
    · intro cg c
      simp [get_subtree, Int.toNat_natCast]
    · have hpos : g.toNat = (g.toNat - 1) + 1 := by omega
      simp only [get_subtree, Option.some.injEq, Tree.mk.injEq]
      rw [show g.toNat + 1 = (g.toNat) + 1 from rfl]
      simp only [get_subtree_gen_aux, hget, List.cons.injEq, true_and]
      refine congrArg List.flatten ?_
      refine List.map_congr_left ?_
      intro cg hcg
      have hcglt : cg < g.toNat := List.mem_range.mp hcg
      refine congrArg List.flatten ?_
      refine List.map_congr_left ?_
      intro c _
      exact gen_aux_fuel_eq t cg g.toNat (cg + 1) (by omega) (by omega) c

/-- Witness for C7: the one-node tree at generation bound 1. -/
theorem get_subtree_spec_witness :
    get_subtree (⟨[Node.new 1 2]⟩ : Tree ℕ ℕ) 1 (some 0) = some ⟨[Node.new 1 2]⟩ :=
  (get_subtree_spec (⟨[Node.new 1 2]⟩ : Tree ℕ ℕ) (wf_single 1 2) 1 (RT.mk 1 [])
    (Unfolds.mk rfl UnfoldsList.nil) (Node.new 1 2) rfl 1 (by omega)).2.1

/-! ## Store-mutation lemmas (shared-handle updates seen through `get_node`) -/

lemma find_map_invariant {α : Type} (p : α → Bool) (g : α → α) (l : List α)
    (hp : ∀ a, p (g a) = p a) :
    List.find? p (l.map g) = (List.find? p l).map g := by
  induction l with
  | nil => rfl
  | cons a l ih =>
    simp only [List.map_cons, List.find?]
    rw [hp a]
    cases hpa : p a with
    | true => rfl
    | false => exact ih

lemma find_filter_of_imp {α : Type} (p pr : α → Bool) (l : List α)
    (h : ∀ a, p a = true → pr a = true) :
    List.find? p (l.filter pr) = List.find? p l := by
  induction l with
  | nil => rfl
  | cons a l ih =>
    simp only [List.filter_cons]
    cases hpa : p a with
    | true =>
      rw [h a hpa]
      simp [List.find?, hpa]
    | false =>
      cases hpr : pr a with
      | true => simp [List.find?, hpa, ih]
      | false => simp [List.find?, hpa, ih]

lemma filter_map_invariant {α : Type} (p : α → Bool) (g : α → α) (l : List α)
    (hp : ∀ a, p (g a) = p a) (hg : ∀ a, p a = true → g a = a) :
    (l.map g).filter p = l.filter p := by
  induction l with
  | nil => rfl
  | cons a l ih =>
    simp only [List.map_cons, List.filter_cons]
    rw [hp a]
    cases hpa : p a with
    | true => rw [hg a hpa, ih]
    | false => exact ih

lemma get_node_update (t : Tree Q T) (q : Q) (f : Node Q T → Node Q T)
    (hid : ∀ n, (f n).node_id = n.node_id) (q' : Q) :
    get_node (update_node t q f) q'
      = if q' = q then (get_node t q').map f else get_node t q' := by
  have hfind : get_node (update_node t q f) q'
      = (get_node t q').map (fun n => if n.node_id = q then f n else n) := by
    rw [get_node, update_node]
    exact find_map_invariant _ _ _ (fun a => by
      by_cases ha : a.node_id = q <;> simp [ha, hid])
  rw [hfind]
  cases hget : get_node t q' with
  | none => simp
  | some n =>
    have hn : n.node_id = q' := (get_node_mem hget).2
    by_cases hq : q' = q
    · subst hq
      simp [hn]
    · rw [show Option.map (fun n0 => if n0.node_id = q then f n0 else n0) (some n)
          = some (if n.node_id = q then f n else n) from rfl]
      rw [if_neg (by rw [hn]; exact hq), if_neg hq]

lemma update_node_not_mem (t : Tree Q T) (q : Q) (f : Node Q T → Node Q T)
    (h : q ∉ t.nodes.map Node.node_id) : update_node t q f = t := by
  rcases t with ⟨l⟩
  rw [update_node]
  congr 1
  conv_rhs => rw [show l = l.map (fun n => n) from (List.map_id l).symm]
  refine List.map_congr_left ?_
  intro n hn
  rw [if_neg]
  intro hc
  exact h (List.mem_map.mpr ⟨n, hn, hc⟩)

lemma map_node_id_update (t : Tree Q T) (q : Q) (f : Node Q T → Node Q T)
    (hid : ∀ n, (f n).node_id = n.node_id) :
    (update_node t q f).nodes.map Node.node_id = t.nodes.map Node.node_id := by
  rw [update_node, List.map_map]
  refine List.map_congr_left ?_
  intro n _
  by_cases h : n.node_id = q <;> simp [h, hid]

lemma length_update (t : Tree Q T) (q : Q) (f : Node Q T → Node Q T) :
    (update_node t q f).nodes.length = t.nodes.length := by
  simp [update_node]

lemma get_node_filter_set (l : List (Node Q T)) (S : List Q) (q : Q) :
    get_node (⟨l.filter (fun n => n.node_id ∉ S)⟩ : Tree Q T) q
      = if q ∈ S then none else get_node (⟨l⟩ : Tree Q T) q := by
  by_cases hq : q ∈ S
  · rw [if_pos hq, get_node, List.find?_eq_none]
    intro n hn hp
    have hkeep := List.of_mem_filter hn
    have hnq : n.node_id = q := by simpa using hp
    rw [hnq] at hkeep
    simp [hq] at hkeep
  · rw [if_neg hq, get_node, get_node]
    exact find_filter_of_imp _ _ _ (fun a hp => by
      have ha : a.node_id = q := by simpa using hp
      simp [ha, hq])

lemma get_node_filter_ne (l : List (Node Q T)) (id : Q) (q : Q) :
    get_node (⟨l.filter (fun n => n.node_id ≠ id)⟩ : Tree Q T) q
      = if q = id then none else get_node (⟨l⟩ : Tree Q T) q := by
  have hrw : l.filter (fun n => n.node_id ≠ id) = l.filter (fun n => n.node_id ∉ [id]) := by
    refine List.filter_congr ?_
    intro n _
    simp
  rw [hrw, get_node_filter_set]
  simp

lemma filter_out_id_length (l : List (Node Q T)) (id : Q)
    (hnd : (l.map Node.node_id).Nodup) (hmem : id ∈ l.map Node.node_id) :
    (l.filter (fun n => n.node_id ≠ id)).length + 1 = l.length := by
  induction l with
  | nil => cases hmem
  | cons n ns ih =>
    simp only [List.map_cons, List.nodup_cons] at hnd
    rcases List.mem_cons.mp hmem with h | h
    · have hd : (decide (n.node_id ≠ id)) = false := by simp [← h]
      have hkeep : ns.filter (fun n0 => n0.node_id ≠ id) = ns := by
        rw [List.filter_eq_self]
        intro a ha
        have hane : a.node_id ≠ id := by
          intro hc
          exact hnd.1 (h ▸ List.mem_map.mpr ⟨a, ha, hc⟩)
        simpa using hane
      have hfc : List.filter (fun n0 => decide (n0.node_id ≠ id)) (n :: ns)
          = List.filter (fun n0 => decide (n0.node_id ≠ id)) ns := by
        rw [List.filter_cons, hd]
        simp
      rw [show (fun n0 : Node Q T => decide (n0.node_id ≠ id)) = (fun n0 : Node Q T => (n0.node_id ≠ id : Bool)) from rfl] at hfc
      rw [hfc, hkeep, List.length_cons]
    · have hne : n.node_id ≠ id := by
        intro hc
        exact hnd.1 (hc ▸ h)
      have hd : (decide (n.node_id ≠ id)) = true := by simp [hne]
      simp only [List.filter_cons, hd, if_true, List.length_cons]
      have hih := ih hnd.2 h
      omega

/-! ## Node removal (`Tree::remove_node`, `tree.rs` lines 373–406) -/

inductive NodeRemovalStrategy where
  | RetainChildren : NodeRemovalStrategy
  | RemoveNodeAndChildren : NodeRemovalStrategy
deriving DecidableEq

/-- The `for child in children` loop of the `RetainChildren` branch:
look each child up in the current store (panic if absent) and
`parent_node.add_child` it. -/
def attach_children (pid : Q) : Tree Q T → List Q → Option (Tree Q T)
  | acc, [] => some acc
  | acc, c :: cs =>
    match get_node acc c with
    | none => none
    | some _ => attach_children pid (add_child acc pid c) cs

/-- The `RetainChildren` branch: unwrap the target, fail on a root,
unwrap the parent, `parent_node.remove_child(node)`, re-read the
target's children through the shared handle, reattach each child to the
parent, then drop the target from the store. -/
def remove_node_rc (t : Tree Q T) (node_id : Q) :
    Option (Except TreeError Unit × Tree Q T) :=
  match get_node t node_id with
  | none => none
  | some node =>
    match node.parent with
    | none => some (Except.error (TreeError.InvalidOperation
        "Cannot remove root node with RetainChildren strategy"), t)
    | some pid =>
      match get_node t pid with
      | none => none
      | some _ =>
        let t1 := remove_child t pid node_id
        let children := ((get_node t1 node_id).map Node.children).getD []
        match attach_children pid t1 children with
        | none => none
        | some t2 =>
          some (Except.ok (), ⟨t2.nodes.filter (fun n => n.node_id ≠ node_id)⟩)

/-- The `for child in children` loop of the `RemoveNodeAndChildren`
branch: look the child up (panic if absent),
`node.remove_child(child)` — the handle `node` is no longer stored, so
only the side effect clearing the child's parent is observable — and
recurse. -/
def remove_rnc_children (go : Tree Q T → Q → Option (Tree Q T)) (node_id : Q) :
    Tree Q T → List Q → Option (Tree Q T)
  | acc, [] => some acc
  | acc, c :: cs =>
    match get_node acc c with
    | none => none
    | some _ =>
      match go (remove_child acc node_id c) c with
      | none => none
      | some acc2 => remove_rnc_children go node_id acc2 cs

/-- The `RemoveNodeAndChildren` branch, fuelled: unwrap the target,
snapshot its children, detach it from its parent when it has one
(unwrapping the parent), drop it from the store, then recursively
remove every snapshotted child. -/
def remove_node_rnc_aux : ℕ → Tree Q T → Q → Option (Tree Q T)
  | 0, _, _ => none
  | fuel + 1, t, node_id =>
    match get_node t node_id with
    | none => none
    | some node =>
      let step1 : Option (Tree Q T) :=
        match node.parent with
        | some pid =>
          match get_node t pid with
          | none => none
          | some _ => some (remove_child t pid node_id)
        | none => some t
      match step1 with
      | none => none
      | some t1 =>
        remove_rnc_children (remove_node_rnc_aux fuel) node_id
          (⟨t1.nodes.filter (fun n => n.node_id ≠ node_id)⟩) node.children

/-- `Tree::remove_node` (the `RemoveNodeAndChildren` branch can only
end in `Ok(())` or a panic, as in the source). -/
def remove_node (t : Tree Q T) (node_id : Q) (strategy : NodeRemovalStrategy) :
    Option (Except TreeError Unit × Tree Q T) :=
  match strategy with
  | .RetainChildren => remove_node_rc t node_id
  | .RemoveNodeAndChildren =>
    (remove_node_rnc_aux (t.nodes.length + 1) t node_id).map
      (fun t2 => (Except.ok (), t2))

/-! ### Facts a well-formed tree gives about a stored node -/

lemma wf_no_self_child {t : Tree Q T} (hwf : WF t) {id : Q} {node : Node Q T}
    (hget : get_node t id = some node) : id ∉ node.children := by
  intro hc
  obtain ⟨cn, hcn, hcp⟩ := hwf.child_mem node (get_node_mem hget).1 id hc
  have hcnn : cn = node := by rw [hget] at hcn; exact (Option.some.inj hcn).symm
  subst hcnn
  obtain ⟨d, hd⟩ := hwf.acyclic
  exact lt_irrefl _ (hd cn (get_node_mem hget).1 _ hcp)

lemma wf_parent_ne {t : Tree Q T} (hwf : WF t) {id pid : Q} {node : Node Q T}
    (hget : get_node t id = some node) (hp : node.parent = some pid) :
    pid ≠ id ∧ pid ∉ node.children := by
  obtain ⟨d, hd⟩ := hwf.acyclic
  have h1 : d pid < d id := by
    have := hd node (get_node_mem hget).1 pid hp
    rwa [(get_node_mem hget).2] at this
  constructor
  · intro hc
    subst hc
    exact lt_irrefl _ h1
  · intro hc
    obtain ⟨cn, hcn, hcp⟩ := hwf.child_mem node (get_node_mem hget).1 pid hc
    have h2 : d node.node_id < d cn.node_id := hd cn (get_node_mem hcn).1 _ hcp
    rw [(get_node_mem hcn).2, (get_node_mem hget).2] at h2
    omega

lemma wf_children_present {t : Tree Q T} (hwf : WF t) {id : Q} {node : Node Q T}
    (hget : get_node t id = some node) :
    ∀ c ∈ node.children, (get_node t c).isSome = true := by
  intro c hc
  obtain ⟨cn, hcn, _⟩ := hwf.child_mem node (get_node_mem hget).1 c hc
  simp [hcn]

lemma wf_children_ne_self {t : Tree Q T} (hwf : WF t) {id : Q} {node : Node Q T}
    (hget : get_node t id = some node) : ∀ c ∈ node.children, c ≠ id := by
  intro c hc hcontra
  subst hcontra
  exact wf_no_self_child hwf hget hc

/-! ### The RetainChildren reattachment loop -/

lemma attach_children_spec (pid : Q) :
    ∀ cs : List Q, (∀ c ∈ cs, c ≠ pid) →
    ∀ acc : Tree Q T, (∀ c ∈ cs, (get_node acc c).isSome = true) →
    ∃ t2, attach_children pid acc cs = some t2 ∧
      get_node t2 pid = (get_node acc pid).map
        (fun n => { n with children := n.children ++ cs }) ∧
      (∀ c ∈ cs, get_node t2 c
        = (get_node acc c).map (fun n => { n with parent := some pid })) ∧
      (∀ q, q ≠ pid → q ∉ cs → get_node t2 q = get_node acc q) ∧
      t2.nodes.length = acc.nodes.length ∧
      t2.nodes.map Node.node_id = acc.nodes.map Node.node_id := by
  intro cs
  induction cs with
  | nil =>
    intro _ acc _
    refine ⟨acc, rfl, ?_, ?_, ?_, rfl, rfl⟩
    · cases hget : get_node acc pid with
      | none => rfl
      | some n => simp
    · intro c hc
      cases hc
    · intro q _ _
      rfl
  | cons c cs' ih =>
    intro hpid acc hpresent
    have hcpid : c ≠ pid := hpid c (List.mem_cons_self _ _)
    have hcsome := hpresent c (List.mem_cons_self _ _)
    obtain ⟨cn, hcn⟩ := Option.isSome_iff_exists.mp hcsome
    have hA : get_node (add_child acc pid c) pid
        = (get_node acc pid).map (fun n => { n with children := n.children ++ [c] }) := by
      rw [add_child, get_node_update]
      · rw [if_neg (fun hcon => hcpid hcon.symm), get_node_update]
        · rw [if_pos rfl]
        · intro n; rfl
      · intro n; rfl
    have hB : get_node (add_child acc pid c) c
        = (get_node acc c).map (fun n => { n with parent := some pid }) := by
      rw [add_child, get_node_update]
      · rw [if_pos rfl, get_node_update]
        · rw [if_neg hcpid]
        · intro n; rfl
      · intro n; rfl
    have hC : ∀ q, q ≠ pid → q ≠ c →
        get_node (add_child acc pid c) q = get_node acc q := by
      intro q hqp hqc
      rw [add_child, get_node_update]
      · rw [if_neg hqc, get_node_update]
        · rw [if_neg hqp]
        · intro n; rfl
      · intro n; rfl
    have hpresent' : ∀ c' ∈ cs', (get_node (add_child acc pid c) c').isSome = true := by
      intro c' hc'
      by_cases hcc : c' = c
      · subst hcc
        rw [hB, hcn]
        rfl
      · rw [hC c' (hpid c' (List.mem_cons_of_mem _ hc')) hcc]
        exact hpresent c' (List.mem_cons_of_mem _ hc')
    obtain ⟨t2, ht2, h2pid, h2mem, h2other, h2len, h2ids⟩ :=
      ih (fun c' hc' => hpid c' (List.mem_cons_of_mem _ hc')) (add_child acc pid c) hpresent'
    refine ⟨t2, ?_, ?_, ?_, ?_, ?_, ?_⟩
    · simp only [attach_children, hcn]
      exact ht2
    · rw [h2pid, hA]
      cases hp : get_node acc pid with
      | none => rfl
      | some n => simp
    · intro c'' hc''
      rcases List.mem_cons.mp hc'' with rfl | hc''
      · by_cases hmem : c'' ∈ cs'
        · rw [h2mem c'' hmem, hB, hcn]
          rfl
        · rw [h2other c'' hcpid hmem, hB]
      · rw [h2mem c'' hc'']
        by_cases hcc : c'' = c
        · subst hcc
          rw [hB, hcn]
          rfl
        · rw [hC c'' (hpid c'' (List.mem_cons_of_mem _ hc'')) hcc]
    · intro q hqp hqcs
      rw [h2other q hqp (fun hc => hqcs (List.mem_cons_of_mem _ hc)),
        hC q hqp (fun hc => hqcs (hc ▸ List.mem_cons_self _ _))]
    · rw [h2len, add_child, length_update, length_update]
    · rw [h2ids, add_child, map_node_id_update]
      · rw [map_node_id_update]
        intro n; rfl
      · intro n; rfl

/-- C2: on every well-formed tree, removing a stored non-root node with
`RetainChildren` succeeds, detaches it from its parent's child list,
appends its children (in original order) to the parent's child list,
repoints each child's parent to that parent, leaves every other node
untouched, and shrinks the store by exactly one; on the root it fails
with `InvalidOperation` and leaves the store unchanged. -/
theorem remove_node_retain_spec (t : Tree Q T) (hwf : WF t) (node_id : Q)
    (node : Node Q T) (hget : get_node t node_id = some node) :
    (node.parent = none →
      remove_node t node_id NodeRemovalStrategy.RetainChildren
        = some (Except.error (TreeError.InvalidOperation
            "Cannot remove root node with RetainChildren strategy"), t)) ∧
    (∀ pid, node.parent = some pid →
      ∃ pnode, get_node t pid = some pnode ∧
      ∃ t2, remove_node t node_id NodeRemovalStrategy.RetainChildren
          = some (Except.ok (), t2) ∧
        get_node t2 node_id = none ∧
        get_node t2 pid = some { pnode with
          children := pnode.children.filter (fun c => c ≠ node_id) ++ node.children } ∧
        (∀ c ∈ node.children, ∃ cn, get_node t c = some cn ∧
          get_node t2 c = some { cn with parent := some pid }) ∧
        (∀ q, q ≠ node_id → q ≠ pid → q ∉ node.children →
          get_node t2 q = get_node t q) ∧
        t2.nodes.length + 1 = t.nodes.length) := by
  constructor
  · intro hp
    simp [remove_node, remove_node_rc, hget, hp]
  · intro pid hp
    obtain ⟨pnode, hpnode, _⟩ := hwf.parent_mem node (get_node_mem hget).1 pid hp
    have hpidne : pid ≠ node_id := (wf_parent_ne hwf hget hp).1
    have hpidnc : pid ∉ node.children := (wf_parent_ne hwf hget hp).2
    have hchpres := wf_children_present hwf hget
    have hchne := wf_children_ne_self hwf hget
    refine ⟨pnode, hpnode, ?_⟩
    have h1target : get_node (remove_child t pid node_id) node_id
        = some { node with parent := none } := by
      rw [remove_child, get_node_update]
      · rw [if_pos rfl, get_node_update]
        · rw [if_neg (fun hcon => hpidne hcon.symm), hget]
          rfl
        · intro n; rfl
      · intro n; rfl
    have h1pid : get_node (remove_child t pid node_id) pid
        = some { pnode with children := pnode.children.filter (fun c => c ≠ node_id) } := by
      rw [remove_child, get_node_update]
      · rw [if_neg hpidne, get_node_update]
        · rw [if_pos rfl, hpnode]
          rfl
        · intro n; rfl
      · intro n; rfl
    have h1other : ∀ q, q ≠ pid → q ≠ node_id →
        get_node (remove_child t pid node_id) q = get_node t q := by
      intro q hqp hqn
      rw [remove_child, get_node_update]
      · rw [if_neg hqn, get_node_update]
        · rw [if_neg hqp]
        · intro n; rfl
      · intro n; rfl
    have h1ids : (remove_child t pid node_id).nodes.map Node.node_id
        = t.nodes.map Node.node_id := by
      rw [remove_child, map_node_id_update]
      · rw [map_node_id_update]
        intro n; rfl
      · intro n; rfl
    have h1len : (remove_child t pid node_id).nodes.length = t.nodes.length := by
      rw [remove_child, length_update, length_update]
    have hpres1 : ∀ c ∈ node.children,
        (get_node (remove_child t pid node_id) c).isSome = true := by
      intro c hc
      rw [h1other c (fun hcon => hpidnc (hcon ▸ hc)) (hchne c hc)]
      exact hchpres c hc
    obtain ⟨t2', ht2', h2pid, h2mem, h2other, h2len, h2ids⟩ :=
      attach_children_spec pid node.children
        (fun c hc hcon => hpidnc (hcon ▸ hc)) (remove_child t pid node_id) hpres1
    have hchildren_eq :
        (((get_node (remove_child t pid node_id) node_id).map Node.children).getD [])
          = node.children := by
      rw [h1target]
      rfl
    have hrun : remove_node t node_id NodeRemovalStrategy.RetainChildren
        = some (Except.ok (),
            (⟨t2'.nodes.filter (fun n => n.node_id ≠ node_id)⟩ : Tree Q T)) := by
      simp only [remove_node, remove_node_rc, hget, hp, hpnode, hchildren_eq, ht2']
    refine ⟨⟨t2'.nodes.filter (fun n => n.node_id ≠ node_id)⟩, hrun, ?_, ?_, ?_, ?_, ?_⟩
    · rw [get_node_filter_ne, if_pos rfl]
    · rw [get_node_filter_ne, if_neg hpidne]
      rw [show get_node (⟨t2'.nodes⟩ : Tree Q T) pid = get_node t2' pid from rfl]
      rw [h2pid, h1pid]
      rfl
    · intro c hc
      obtain ⟨cn, hcn⟩ := Option.isSome_iff_exists.mp (hchpres c hc)
      refine ⟨cn, hcn, ?_⟩
      rw [get_node_filter_ne, if_neg (hchne c hc)]
      rw [show get_node (⟨t2'.nodes⟩ : Tree Q T) c = get_node t2' c from rfl]
      rw [h2mem c hc, h1other c (fun hcon => hpidnc (hcon ▸ hc)) (hchne c hc), hcn]
      rfl
    · intro q hqn hqp hqc
      rw [get_node_filter_ne, if_neg hqn]
      rw [show get_node (⟨t2'.nodes⟩ : Tree Q T) q = get_node t2' q from rfl]
      rw [h2other q hqp hqc, h1other q hqp hqn]
    · have hnd2 : (t2'.nodes.map Node.node_id).Nodup := by
        rw [h2ids, h1ids]
        exact hwf.nodup_ids
      have hmem2 : node_id ∈ t2'.nodes.map Node.node_id := by
        rw [h2ids, h1ids]
        exact List.mem_map.mpr ⟨node, (get_node_mem hget).1, (get_node_mem hget).2⟩
      have hfl := filter_out_id_length t2'.nodes node_id hnd2 hmem2
      have hshow : (⟨t2'.nodes.filter (fun n => n.node_id ≠ node_id)⟩ : Tree Q T).nodes.length
          = (t2'.nodes.filter (fun n => n.node_id ≠ node_id)).length := rfl
      omega

/-- Witness for C2: removing the root of a one-node tree under
`RetainChildren` fails with `InvalidOperation`. -/
theorem remove_node_retain_spec_witness :
    remove_node (⟨[Node.new 1 2]⟩ : Tree ℕ ℕ) 1 NodeRemovalStrategy.RetainChildren
      = some (Except.error (TreeError.InvalidOperation
          "Cannot remove root node with RetainChildren strategy"), ⟨[Node.new 1 2]⟩) :=
  (remove_node_retain_spec (⟨[Node.new 1 2]⟩ : Tree ℕ ℕ) (wf_single 1 2) 1
    (Node.new 1 2) rfl).1 rfl

/-! ### Stability of unfoldings under store edits away from the subtree -/

lemma unfolds_transfer :
    ∀ rt : RT Q, ∀ id : Q, ∀ t t' : Tree Q T, Unfolds t id rt →
      (∀ q ∈ rt.idList, ∃ n n', get_node t q = some n ∧ get_node t' q = some n' ∧
        n'.children = n.children) →
      Unfolds t' id rt := by
  refine RT.strongInduction ?_
  intro rt ih id t t' hu hagree
  cases hu with
  | mk hget hlist =>
    rename_i node rts
    obtain ⟨n, n', hn, hn', hch⟩ :=
      hagree id (by rw [idList_mk]; exact List.mem_cons_self _ _)
    have hnn : n = node := by rw [hget] at hn; exact (Option.some.inj hn).symm
    rw [hnn] at hch
    have hmemsub : ∀ rc ∈ rts, ∀ q ∈ rc.idList, q ∈ (RT.mk id rts).idList := by
      intro rc hrc q hq
      rw [idList_mk]
      exact List.mem_cons_of_mem _
        (List.mem_flatten.mpr ⟨rc.idList, List.mem_map_of_mem _ hrc, hq⟩)
    have key : ∀ cs' : List Q, ∀ rcs' : List (RT Q), UnfoldsList t cs' rcs' →
        (∀ rc ∈ rcs', rc ∈ rts) → UnfoldsList t' cs' rcs' := by
      intro cs'
      induction cs' with
      | nil => intro rcs' h _; cases h; exact UnfoldsList.nil
      | cons c cs'' ihl =>
        intro rcs' h hsub
        cases h with
        | cons hu0 hrest =>
          rename_i rc rcs''
          refine UnfoldsList.cons ?_
            (ihl rcs'' hrest (fun rc' hm => hsub rc' (List.mem_cons_of_mem _ hm)))
          refine ih rc (child_idList_sublength (hsub rc (List.mem_cons_self _ _))) c t t' hu0 ?_
          intro q hq
          exact hagree q (hmemsub rc (hsub rc (List.mem_cons_self _ _)) q hq)
    refine Unfolds.mk hn' ?_
    rw [hch]
    exact key node.children rts hlist (fun rc hm => hm)

lemma unfoldsList_transfer (t t' : Tree Q T) (cs : List Q) (rcs : List (RT Q))
    (h : UnfoldsList t cs rcs)
    (hagree : ∀ rc ∈ rcs, ∀ q ∈ rc.idList, ∃ n n', get_node t q = some n ∧
      get_node t' q = some n' ∧ n'.children = n.children) :
    UnfoldsList t' cs rcs := by
  induction cs generalizing rcs with
  | nil => cases h; exact UnfoldsList.nil
  | cons c cs' ih =>
    cases h with
    | cons hu0 hrest =>
      rename_i rc rcs'
      refine UnfoldsList.cons ?_
        (ih rcs' hrest (fun rc' hm => hagree rc' (List.mem_cons_of_mem _ hm)))
      exact unfolds_transfer rc c t t' hu0 (hagree rc (List.mem_cons_self _ _))

/-! ### Filter algebra on the node store -/

lemma nodup_ids_filter (l : List (Node Q T)) (p : Node Q T → Bool)
    (h : (l.map Node.node_id).Nodup) : ((l.filter p).map Node.node_id).Nodup := by
  refine List.Nodup.sublist ?_ h
  exact List.Sublist.map Node.node_id (List.filter_sublist l)

lemma filter_not_mem_merge (l : List (Node Q T)) (A B : List Q) :
    (l.filter (fun n => n.node_id ∉ A)).filter (fun n => n.node_id ∉ B)
      = l.filter (fun n => n.node_id ∉ A ++ B) := by
  rw [List.filter_filter]
  refine List.filter_congr ?_
  intro n _
  by_cases hA : n.node_id ∈ A <;> by_cases hB : n.node_id ∈ B <;> simp [hA, hB]

lemma filter_ne_cons_merge (l : List (Node Q T)) (id : Q) (S : List Q) :
    (l.filter (fun n => n.node_id ≠ id)).filter (fun n => n.node_id ∉ S)
      = l.filter (fun n => n.node_id ∉ id :: S) := by
  rw [List.filter_filter]
  refine List.filter_congr ?_
  intro n _
  by_cases hA : n.node_id = id <;> by_cases hB : n.node_id ∈ S <;> simp [hA, hB]

lemma filter_out_set_length (S : List Q) :
    ∀ l : List (Node Q T), (l.map Node.node_id).Nodup → S.Nodup →
      (∀ q ∈ S, q ∈ l.map Node.node_id) →
      (l.filter (fun n => n.node_id ∉ S)).length + S.length = l.length := by
  induction S with
  | nil =>
    intro l _ _ _
    simp
  | cons q S' ihS =>
    intro l hnd hS hmem
    simp only [List.nodup_cons] at hS
    have hsplit : l.filter (fun n => n.node_id ∉ q :: S')
        = (l.filter (fun n => n.node_id ≠ q)).filter (fun n => n.node_id ∉ S') :=
      (filter_ne_cons_merge l q S').symm
    have hnd' : ((l.filter (fun n => n.node_id ≠ q)).map Node.node_id).Nodup :=
      nodup_ids_filter l _ hnd
    have hmem' : ∀ q' ∈ S', q' ∈ (l.filter (fun n => n.node_id ≠ q)).map Node.node_id := by
      intro q' hq'
      obtain ⟨n, hn, hnid⟩ := List.mem_map.mp (hmem q' (List.mem_cons_of_mem _ hq'))
      refine List.mem_map.mpr ⟨n, ?_, hnid⟩
      refine List.mem_filter.mpr ⟨hn, ?_⟩
      have : n.node_id ≠ q := by
        rw [hnid]
        intro hc
        exact hS.1 (hc ▸ hq')
      simpa using this
    have h1 := ihS (l.filter (fun n => n.node_id ≠ q)) hnd' hS.2 hmem'
    have h2 := filter_out_id_length l q hnd (hmem q (List.mem_cons_self _ _))
    rw [hsplit]
    simp only [List.length_cons]
    omega

lemma wf_parent_not_in_subtree {t : Tree Q T} (hwf : WF t) {id pid : Q} {rt : RT Q}
    {node : Node Q T} (hu : Unfolds t id rt) (hget : get_node t id = some node)
    (hp : node.parent = some pid) : pid ∉ rt.idList := by
  intro hc
  obtain ⟨d, hd⟩ := hwf.acyclic
  have h1 : d id ≤ d pid := unfolds_depth_le hwf d hd rt id hu pid hc
  have h2 : d pid < d id := by
    have := hd node (get_node_mem hget).1 pid hp
    rwa [(get_node_mem hget).2] at this
  omega

/-! ### The RemoveNodeAndChildren recursion -/

lemma remove_rnc_children_spec (fuel : ℕ)
    (IH : ∀ (t' : Tree Q T) (id : Q) (rt : RT Q), Unfolds t' id rt → rt.idList.Nodup →
      (t'.nodes.map Node.node_id).Nodup →
      (∀ n, get_node t' id = some n → n.parent = none) →
      rt.idList.length ≤ fuel →
      remove_node_rnc_aux fuel t' id
        = some ⟨t'.nodes.filter (fun n => n.node_id ∉ rt.idList)⟩) :
    ∀ cs : List Q, ∀ rcs : List (RT Q), ∀ acc : Tree Q T, ∀ removed_id : Q,
      UnfoldsList acc cs rcs →
      ((rcs.map RT.idList).flatten).Nodup →
      (acc.nodes.map Node.node_id).Nodup →
      removed_id ∉ acc.nodes.map Node.node_id →
      (∀ rc ∈ rcs, rc.idList.length ≤ fuel) →
      remove_rnc_children (remove_node_rnc_aux fuel) removed_id acc cs
        = some ⟨acc.nodes.filter (fun n => n.node_id ∉ (rcs.map RT.idList).flatten)⟩ := by
  intro cs
  induction cs with
  | nil =>
    intro rcs acc removed_id h _ _ _ _
    cases h
    have hkeep : acc.nodes.filter
        (fun n => n.node_id ∉ (([] : List (RT Q)).map RT.idList).flatten) = acc.nodes := by
      rw [List.filter_eq_self]
      intro n _
      simp
    rw [remove_rnc_children, hkeep]
  | cons c cs' ihl =>
    intro rcs acc removed_id h hflat hids hrid hfuel
    cases h with
    | cons hu0 hrest =>
      rename_i rc rcs'
      have hrootc : rc.rootId = c := unfolds_rootId hu0
      obtain ⟨cnode, hcnode⟩ := unfolds_get_node hu0
      have hflatc : ((rc :: rcs').map RT.idList).flatten
          = rc.idList ++ (rcs'.map RT.idList).flatten := by simp
      rw [hflatc] at hflat
      have hrcnd : rc.idList.Nodup := (List.nodup_append.mp hflat).1
      have hrestnd : ((rcs'.map RT.idList).flatten).Nodup := (List.nodup_append.mp hflat).2.1
      have hdisj : ∀ q ∈ rc.idList, q ∉ (rcs'.map RT.idList).flatten := by
        intro q hq hq'
        exact ((List.nodup_append.mp hflat).2.2 : rc.idList.Disjoint _) hq hq'
      have hacc' : remove_child acc removed_id c
          = update_node acc c (fun n => { n with parent := none }) := by
        rw [remove_child, update_node_not_mem acc removed_id _ hrid]
      have hgetc' : get_node (update_node acc c (fun n => { n with parent := none })) c
          = some { cnode with parent := none } := by
        rw [get_node_update]
        · rw [if_pos rfl, hcnode]
          rfl
        · intro n; rfl
      have hgetq' : ∀ q, q ≠ c →
          get_node (update_node acc c (fun n => { n with parent := none })) q
            = get_node acc q := by
        intro q hq
        rw [get_node_update]
        · rw [if_neg hq]
        · intro n; rfl
      have hids' : (update_node acc c (fun n => { n with parent := none })).nodes.map
          Node.node_id = acc.nodes.map Node.node_id := by
        rw [map_node_id_update]
        intro n; rfl
      have hu0' : Unfolds (update_node acc c (fun n => { n with parent := none })) c rc := by
        refine unfolds_transfer rc c acc _ hu0 ?_
        intro q hq
        by_cases hqc : q = c
        · subst hqc
          exact ⟨cnode, { cnode with parent := none }, hcnode, hgetc', rfl⟩
        · obtain ⟨n, hn⟩ := Option.isSome_iff_exists.mp
            (unfolds_idList_present rc c hu0 q hq)
          exact ⟨n, n, hn, by rw [hgetq' q hqc]; exact hn, rfl⟩
      have haux := IH (update_node acc c (fun n => { n with parent := none })) c rc hu0'
        hrcnd (by rw [hids']; exact hids)
        (by
          intro n hn
          rw [hgetc'] at hn
          rw [← Option.some.inj hn])
        (hfuel rc (List.mem_cons_self _ _))
      have habsorb : (update_node acc c (fun n => { n with parent := none })).nodes.filter
          (fun n => n.node_id ∉ rc.idList)
            = acc.nodes.filter (fun n => n.node_id ∉ rc.idList) := by
        rw [update_node]
        refine filter_map_invariant _ _ _ ?_ ?_
        · intro a
          by_cases ha : a.node_id = c <;> simp [ha]
        · intro a ha
          rw [if_neg]
          intro hc
          have hout : a.node_id ∉ rc.idList := by simpa using ha
          rw [hc] at hout
          exact hout (hrootc ▸ idList_mem_self rc)
      have hulist : UnfoldsList (⟨acc.nodes.filter (fun n => n.node_id ∉ rc.idList)⟩ : Tree Q T)
          cs' rcs' := by
        refine unfoldsList_transfer acc _ cs' rcs' hrest ?_
        intro rc' hm q hq
        obtain ⟨c', hc', hu'⟩ := unfoldsList_mem hrest rc' hm
        obtain ⟨n, hn⟩ := Option.isSome_iff_exists.mp
          (unfolds_idList_present rc' c' hu' q hq)
        have hqout : q ∉ rc.idList := by
          intro hqin
          exact hdisj q hqin
            (List.mem_flatten.mpr ⟨rc'.idList, List.mem_map_of_mem _ hm, hq⟩)
        refine ⟨n, n, hn, ?_, rfl⟩
        rw [get_node_filter_set, if_neg hqout]
        exact hn
      have hnext := ihl rcs'
        (⟨acc.nodes.filter (fun n => n.node_id ∉ rc.idList)⟩ : Tree Q T) removed_id
        hulist hrestnd
        (nodup_ids_filter _ _ hids)
        (by
          intro hc
          obtain ⟨n, hn, hnid⟩ := List.mem_map.mp hc
          exact hrid (List.mem_map.mpr ⟨n, (List.mem_filter.mp hn).1, hnid⟩))
        (fun rc' hm => hfuel rc' (List.mem_cons_of_mem _ hm))
      simp only [remove_rnc_children, hcnode, hacc', haux, habsorb]
      rw [hnext,
        show ((⟨acc.nodes.filter (fun n => n.node_id ∉ rc.idList)⟩ : Tree Q T)).nodes
          = acc.nodes.filter (fun n => n.node_id ∉ rc.idList) from rfl,
        filter_not_mem_merge, hflatc]

lemma remove_node_rnc_aux_spec :
    ∀ fuel : ℕ, ∀ (t : Tree Q T) (id : Q) (rt : RT Q), Unfolds t id rt →
      rt.idList.Nodup → (t.nodes.map Node.node_id).Nodup →
      (∀ n, get_node t id = some n → n.parent = none) →
      rt.idList.length ≤ fuel →
      remove_node_rnc_aux fuel t id
        = some ⟨t.nodes.filter (fun n => n.node_id ∉ rt.idList)⟩ := by
  intro fuel
  induction fuel with
  | zero =>
    intro t id rt _ _ _ _ hlen
    have := idList_length_pos rt
    omega
  | succ m ih =>
    intro t id rt hu hnd hids hroot hlen
    cases hu with
    | mk hget hlist =>
      rename_i node rts
      have hpar : node.parent = none := hroot node hget
      have hidl : (RT.mk id rts).idList = id :: (rts.map RT.idList).flatten := idList_mk id rts
      have hndc : id ∉ (rts.map RT.idList).flatten ∧ ((rts.map RT.idList).flatten).Nodup := by
        rw [hidl] at hnd
        exact List.nodup_cons.mp hnd
      have hulist : UnfoldsList (⟨t.nodes.filter (fun n => n.node_id ≠ id)⟩ : Tree Q T)
          node.children rts := by
        refine unfoldsList_transfer t _ node.children rts hlist ?_
        intro rc hm q hq
        obtain ⟨c, hc, hu'⟩ := unfoldsList_mem hlist rc hm
        obtain ⟨n, hn⟩ := Option.isSome_iff_exists.mp
          (unfolds_idList_present rc c hu' q hq)
        have hqne : q ≠ id := by
          intro hcq
          subst hcq
          exact hndc.1 (List.mem_flatten.mpr ⟨rc.idList, List.mem_map_of_mem _ hm, hq⟩)
        refine ⟨n, n, hn, ?_, rfl⟩
        rw [get_node_filter_ne, if_neg hqne]
        exact hn
      have hchild := remove_rnc_children_spec m ih node.children rts
        (⟨t.nodes.filter (fun n => n.node_id ≠ id)⟩ : Tree Q T) id
        hulist hndc.2
        (nodup_ids_filter _ _ hids)
        (by
          intro hc
          obtain ⟨n, hn, hnid⟩ := List.mem_map.mp hc
          have := (List.mem_filter.mp hn).2
          rw [hnid] at this
          simp at this)
        (by
          intro rc hm
          have h1 := child_idList_sublength (r := id) hm
          omega)
      rw [show remove_node_rnc_aux (m + 1) t id
          = remove_rnc_children (remove_node_rnc_aux m) id
              (⟨t.nodes.filter (fun n => n.node_id ≠ id)⟩ : Tree Q T) node.children from by
        simp only [remove_node_rnc_aux, hget, hpar]]
      rw [hchild,
        show ((⟨t.nodes.filter (fun n => n.node_id ≠ id)⟩ : Tree Q T)).nodes
          = t.nodes.filter (fun n => n.node_id ≠ id) from rfl,
        filter_ne_cons_merge, ← hidl]

/-- C3: on every well-formed tree, removing a stored node (root
permitted) with `RemoveNodeAndChildren` succeeds; the resulting store
is the original with the target dropped from its parent's child list
(when it has a parent) and exactly the target plus all of its
transitive descendants (the duplicate-free preorder id list of the
subtree unfolding) removed, so the store shrinks by `1 + #descendants`
and no other node is removed or changed. -/
theorem remove_node_rnc_spec (t : Tree Q T) (hwf : WF t) (node_id : Q) (rt : RT Q)
    (hu : Unfolds t node_id rt) (node : Node Q T) (hget : get_node t node_id = some node) :
    ∃ t2, remove_node t node_id NodeRemovalStrategy.RemoveNodeAndChildren
        = some (Except.ok (), t2) ∧
      t2.nodes = (t.nodes.map (fun n =>
          if node.parent = some n.node_id then
            { n with children := n.children.filter (fun c => c ≠ node_id) }
          else n)).filter (fun n => n.node_id ∉ rt.idList) ∧
      rt.idList.Nodup ∧
      (∀ q ∈ rt.idList, get_node t2 q = none) ∧
      (∀ pid, node.parent = some pid → ∃ pn, get_node t pid = some pn ∧
        get_node t2 pid = some { pn with
          children := pn.children.filter (fun c => c ≠ node_id) }) ∧
      (∀ q, q ∉ rt.idList → node.parent ≠ some q → get_node t2 q = get_node t q) ∧
      t2.nodes.length + rt.idList.length = t.nodes.length := by
  have hnd : rt.idList.Nodup := unfolds_idList_nodup hwf rt node_id hu
  have hsize := unfolds_size_le hu hnd
  have hpresent := unfolds_idList_present rt node_id hu
  have hmemid : node_id ∈ rt.idList := by
    have hself := idList_mem_self rt
    rwa [unfolds_rootId hu] at hself
  have hmemids : ∀ q ∈ rt.idList, q ∈ t.nodes.map Node.node_id := by
    intro q hq
    obtain ⟨n, hn⟩ := Option.isSome_iff_exists.mp (hpresent q hq)
    exact List.mem_map.mpr ⟨n, (get_node_mem hn).1, (get_node_mem hn).2⟩
  cases hu with
  | mk hget' hlist =>
    rename_i node' rts
    have hnode : node' = node := by rw [hget'] at hget; exact Option.some.inj hget
    rw [hnode] at hget' hlist
    have hidl : (RT.mk node_id rts).idList = node_id :: (rts.map RT.idList).flatten :=
      idList_mk node_id rts
    have hndc : node_id ∉ (rts.map RT.idList).flatten ∧
        ((rts.map RT.idList).flatten).Nodup := by
      rw [hidl] at hnd
      exact List.nodup_cons.mp hnd
    cases hpar : node.parent with
    | none =>
      have hcomp : remove_node_rnc_aux (t.nodes.length + 1) t node_id
          = some ⟨t.nodes.filter (fun n => n.node_id ∉ (RT.mk node_id rts).idList)⟩ :=
        remove_node_rnc_aux_spec (t.nodes.length + 1) t node_id (RT.mk node_id rts)
          (Unfolds.mk hget hlist) hnd hwf.nodup_ids
          (fun n hn => by rw [hget] at hn; rw [← Option.some.inj hn]; exact hpar)
          (by omega)
      have hmapid : t.nodes.map (fun n =>
          if (none : Option Q) = some n.node_id then
            { n with children := n.children.filter (fun c => c ≠ node_id) }
          else n) = t.nodes := by
        have hcong : ∀ n ∈ t.nodes, (if (none : Option Q) = some n.node_id then
            { n with children := n.children.filter (fun c => c ≠ node_id) }
          else n) = n := by
          intro n _
          rw [if_neg (by simp)]
        rw [List.map_congr_left hcong]
        exact List.map_id' t.nodes
      refine ⟨⟨t.nodes.filter (fun n => n.node_id ∉ (RT.mk node_id rts).idList)⟩,
        ?_, ?_, hnd, ?_, ?_, ?_, ?_⟩
      · rw [show remove_node t node_id NodeRemovalStrategy.RemoveNodeAndChildren
            = (remove_node_rnc_aux (t.nodes.length + 1) t node_id).map
                (fun t2 => (Except.ok (), t2)) from rfl, hcomp]
        rfl
      · conv_lhs => rw [show ((⟨t.nodes.filter
            (fun n => n.node_id ∉ (RT.mk node_id rts).idList)⟩ : Tree Q T)).nodes
          = t.nodes.filter (fun n => n.node_id ∉ (RT.mk node_id rts).idList) from rfl]
        rw [hmapid]
      · intro q hq
        rw [show get_node
            (⟨t.nodes.filter (fun n => n.node_id ∉ (RT.mk node_id rts).idList)⟩ : Tree Q T) q
          = if q ∈ (RT.mk node_id rts).idList then none else get_node t q from
            get_node_filter_set t.nodes _ q, if_pos hq]
      · intro pid hp
        simp at hp
      · intro q hq _
        rw [show get_node
            (⟨t.nodes.filter (fun n => n.node_id ∉ (RT.mk node_id rts).idList)⟩ : Tree Q T) q
          = if q ∈ (RT.mk node_id rts).idList then none else get_node t q from
            get_node_filter_set t.nodes _ q, if_neg hq]
      · exact filter_out_set_length _ t.nodes hwf.nodup_ids hnd hmemids
    | some pid =>
      obtain ⟨pn, hpn, _⟩ := hwf.parent_mem node (get_node_mem hget).1 pid hpar
      have hpidni : pid ∉ (RT.mk node_id rts).idList :=
        wf_parent_not_in_subtree hwf (Unfolds.mk hget hlist) hget hpar
      have hpidne : pid ≠ node_id := fun hc => hpidni (hc ▸ hmemid)
      have hhead : remove_node_rnc_aux (t.nodes.length + 1) t node_id
          = remove_rnc_children (remove_node_rnc_aux t.nodes.length) node_id
              (⟨(remove_child t pid node_id).nodes.filter (fun n => n.node_id ≠ node_id)⟩)
              node.children := by
        simp only [remove_node_rnc_aux, hget, hpar, hpn]
      have h1other : ∀ q, q ≠ pid → q ≠ node_id →
          get_node (remove_child t pid node_id) q = get_node t q := by
        intro q hqp hqn
        rw [remove_child, get_node_update]
        · rw [if_neg hqn, get_node_update]
          · rw [if_neg hqp]
          · intro n; rfl
        · intro n; rfl
      have h1ids : (remove_child t pid node_id).nodes.map Node.node_id
          = t.nodes.map Node.node_id := by
        rw [remove_child, map_node_id_update]
        · rw [map_node_id_update]
          intro n; rfl
        · intro n; rfl
      have hflsub : ∀ q ∈ (rts.map RT.idList).flatten, q ∈ (RT.mk node_id rts).idList := by
        rw [hidl]
        exact fun q hq => List.mem_cons_of_mem _ hq
      have hulist : UnfoldsList
          (⟨(remove_child t pid node_id).nodes.filter (fun n => n.node_id ≠ node_id)⟩ : Tree Q T)
          node.children rts := by
        refine unfoldsList_transfer t _ node.children rts hlist ?_
        intro rc hm q hq
        have hqfl : q ∈ (rts.map RT.idList).flatten :=
          List.mem_flatten.mpr ⟨rc.idList, List.mem_map_of_mem _ hm, hq⟩
        have hqne : q ≠ node_id := fun hc => hndc.1 (hc ▸ hqfl)
        have hqnp : q ≠ pid := fun hc => hpidni (hc ▸ hflsub q hqfl)
        obtain ⟨c, hc, hu'⟩ := unfoldsList_mem hlist rc hm
        obtain ⟨n, hn⟩ := Option.isSome_iff_exists.mp
          (unfolds_idList_present rc c hu' q hq)
        refine ⟨n, n, hn, ?_, rfl⟩
        rw [get_node_filter_ne, if_neg hqne,
          show (⟨(remove_child t pid node_id).nodes⟩ : Tree Q T)
            = remove_child t pid node_id from rfl, h1other q hqnp hqne]
        exact hn
      have hloop := remove_rnc_children_spec t.nodes.length
        (remove_node_rnc_aux_spec t.nodes.length) node.children rts
        (⟨(remove_child t pid node_id).nodes.filter (fun n => n.node_id ≠ node_id)⟩ : Tree Q T)
        node_id hulist hndc.2
        (nodup_ids_filter _ _ (by rw [h1ids]; exact hwf.nodup_ids))
        (by
          intro hc
          obtain ⟨n, hn, hnid⟩ := List.mem_map.mp hc
          have hkept := (List.mem_filter.mp hn).2
          rw [hnid] at hkept
          simp at hkept)
        (by
          intro rc hm
          have h1 := child_idList_sublength (r := node_id) hm
          omega)
      have hmapeq : (update_node t pid (fun n =>
            { n with children := n.children.filter (fun c => c ≠ node_id) })).nodes
          = t.nodes.map (fun n =>
            if (some pid : Option Q) = some n.node_id then
              { n with children := n.children.filter (fun c => c ≠ node_id) }
            else n) := by
        rw [update_node]
        refine List.map_congr_left ?_
        intro n _
        by_cases h : n.node_id = pid
        · rw [if_pos h, if_pos (by rw [h])]
        · rw [if_neg h, if_neg (by
            intro hc
            exact h (Option.some.inj hc).symm)]
      have habs : (remove_child t pid node_id).nodes.filter
            (fun n => n.node_id ∉ (RT.mk node_id rts).idList)
          = (update_node t pid (fun n =>
              { n with children := n.children.filter (fun c => c ≠ node_id) })).nodes.filter
            (fun n => n.node_id ∉ (RT.mk node_id rts).idList) := by
        rw [remove_child, update_node]
        refine filter_map_invariant _ _ _ ?_ ?_
        · intro a
          by_cases ha : a.node_id = node_id <;> simp [ha]
        · intro a ha
          rw [if_neg]
          intro hc
          have hout : a.node_id ∉ (RT.mk node_id rts).idList := by simpa using ha
          rw [hc] at hout
          exact hout hmemid
      have hfinal : ((⟨(remove_child t pid node_id).nodes.filter
            (fun n => n.node_id ≠ node_id)⟩ : Tree Q T)).nodes.filter
            (fun n => n.node_id ∉ (rts.map RT.idList).flatten)
          = (t.nodes.map (fun n =>
              if (some pid : Option Q) = some n.node_id then
                { n with children := n.children.filter (fun c => c ≠ node_id) }
              else n)).filter (fun n => n.node_id ∉ (RT.mk node_id rts).idList) := by
        rw [show ((⟨(remove_child t pid node_id).nodes.filter
            (fun n => n.node_id ≠ node_id)⟩ : Tree Q T)).nodes
          = (remove_child t pid node_id).nodes.filter (fun n => n.node_id ≠ node_id) from rfl]
        rw [filter_ne_cons_merge, ← hidl, habs, hmapeq]
      have hidsmap : (t.nodes.map (fun n =>
            if (some pid : Option Q) = some n.node_id then
              { n with children := n.children.filter (fun c => c ≠ node_id) }
            else n)).map Node.node_id = t.nodes.map Node.node_id := by
        rw [← hmapeq, map_node_id_update]
        intro n; rfl
      refine ⟨⟨(t.nodes.map (fun n =>
          if (some pid : Option Q) = some n.node_id then
            { n with children := n.children.filter (fun c => c ≠ node_id) }
          else n)).filter (fun n => n.node_id ∉ (RT.mk node_id rts).idList)⟩,
        ?_, rfl, hnd, ?_, ?_, ?_, ?_⟩
      · rw [show remove_node t node_id NodeRemovalStrategy.RemoveNodeAndChildren
            = (remove_node_rnc_aux (t.nodes.length + 1) t node_id).map
                (fun t2 => (Except.ok (), t2)) from rfl, hhead, hloop, hfinal]
        rfl
      · intro q hq
        rw [show get_node (⟨(t.nodes.map (fun n =>
            if (some pid : Option Q) = some n.node_id then
              { n with children := n.children.filter (fun c => c ≠ node_id) }
            else n)).filter (fun n => n.node_id ∉ (RT.mk node_id rts).idList)⟩ : Tree Q T) q
          = if q ∈ (RT.mk node_id rts).idList then none
            else get_node (⟨t.nodes.map (fun n =>
              if (some pid : Option Q) = some n.node_id then
                { n with children := n.children.filter (fun c => c ≠ node_id) }
              else n)⟩ : Tree Q T) q from get_node_filter_set _ _ q, if_pos hq]
      · intro pid' hp
        have hpid' : pid' = pid := (Option.some.inj hp).symm
        rw [hpid']
        refine ⟨pn, hpn, ?_⟩
        rw [show get_node (⟨(t.nodes.map (fun n =>
            if (some pid : Option Q) = some n.node_id then
              { n with children := n.children.filter (fun c => c ≠ node_id) }
            else n)).filter (fun n => n.node_id ∉ (RT.mk node_id rts).idList)⟩ : Tree Q T) pid
          = if pid ∈ (RT.mk node_id rts).idList then none
            else get_node (⟨t.nodes.map (fun n =>
              if (some pid : Option Q) = some n.node_id then
                { n with children := n.children.filter (fun c => c ≠ node_id) }
              else n)⟩ : Tree Q T) pid from get_node_filter_set _ _ pid, if_neg hpidni]
        rw [show (⟨t.nodes.map (fun n =>
            if (some pid : Option Q) = some n.node_id then
              { n with children := n.children.filter (fun c => c ≠ node_id) }
            else n)⟩ : Tree Q T)
          = update_node t pid (fun n =>
              { n with children := n.children.filter (fun c => c ≠ node_id) }) from by
            rw [show update_node t pid (fun n =>
                { n with children := n.children.filter (fun c => c ≠ node_id) })
              = (⟨(update_node t pid (fun n =>
                  { n with children := n.children.filter (fun c => c ≠ node_id) })).nodes⟩
                : Tree Q T) from rfl, hmapeq]]
        rw [get_node_update]
        · rw [if_pos rfl, hpn]
          rfl
        · intro n; rfl
      · intro q hq hqpar
        have hqnp : q ≠ pid := by
          intro hc
          rw [hc] at hqpar
          exact hqpar rfl
        rw [show get_node (⟨(t.nodes.map (fun n =>
            if (some pid : Option Q) = some n.node_id then
              { n with children := n.children.filter (fun c => c ≠ node_id) }
            else n)).filter (fun n => n.node_id ∉ (RT.mk node_id rts).idList)⟩ : Tree Q T) q
          = if q ∈ (RT.mk node_id rts).idList then none
            else get_node (⟨t.nodes.map (fun n =>
              if (some pid : Option Q) = some n.node_id then
                { n with children := n.children.filter (fun c => c ≠ node_id) }
              else n)⟩ : Tree Q T) q from get_node_filter_set _ _ q, if_neg hq]
        rw [show (⟨t.nodes.map (fun n =>
            if (some pid : Option Q) = some n.node_id then
              { n with children := n.children.filter (fun c => c ≠ node_id) }
            else n)⟩ : Tree Q T)
          = update_node t pid (fun n =>
              { n with children := n.children.filter (fun c => c ≠ node_id) }) from by
            rw [show update_node t pid (fun n =>
                { n with children := n.children.filter (fun c => c ≠ node_id) })
              = (⟨(update_node t pid (fun n =>
                  { n with children := n.children.filter (fun c => c ≠ node_id) })).nodes⟩
                : Tree Q T) from rfl, hmapeq]]
        rw [get_node_update]
        · rw [if_neg hqnp]
        · intro n; rfl
      · have hfol := filter_out_set_length (RT.mk node_id rts).idList
          (t.nodes.map (fun n =>
            if (some pid : Option Q) = some n.node_id then
              { n with children := n.children.filter (fun c => c ≠ node_id) }
            else n))
          (by rw [hidsmap]; exact hwf.nodup_ids) hnd
          (by intro q hq; rw [hidsmap]; exact hmemids q hq)
        have hshow : ((⟨(t.nodes.map (fun n =>
            if (some pid : Option Q) = some n.node_id then
              { n with children := n.children.filter (fun c => c ≠ node_id) }
            else n)).filter (fun n => n.node_id ∉ (RT.mk node_id rts).idList)⟩
              : Tree Q T)).nodes.length
          = ((t.nodes.map (fun n =>
            if (some pid : Option Q) = some n.node_id then
              { n with children := n.children.filter (fun c => c ≠ node_id) }
            else n)).filter (fun n => n.node_id ∉ (RT.mk node_id rts).idList)).length := rfl
        have hlm : (t.nodes.map (fun n =>
            if (some pid : Option Q) = some n.node_id then
              { n with children := n.children.filter (fun c => c ≠ node_id) }
            else n)).length = t.nodes.length := List.length_map _ _
        omega

/-- Witness for C3: removing the single node of a one-node tree under
`RemoveNodeAndChildren` empties the store. -/
theorem remove_node_rnc_spec_witness :
    ∃ t2, remove_node (⟨[Node.new 1 2]⟩ : Tree ℕ ℕ) 1
        NodeRemovalStrategy.RemoveNodeAndChildren = some (Except.ok (), t2) ∧
      t2.nodes = (([Node.new 1 2] : List (Node ℕ ℕ)).map (fun n =>
          if (Node.new 1 2 : Node ℕ ℕ).parent = some n.node_id then
            { n with children := n.children.filter (fun c => c ≠ 1) }
          else n)).filter (fun n => n.node_id ∉ (RT.mk 1 []).idList) ∧
      (RT.mk 1 ([] : List (RT ℕ))).idList.Nodup ∧
      (∀ q ∈ (RT.mk 1 ([] : List (RT ℕ))).idList, get_node t2 q = none) ∧
      (∀ pid, (Node.new 1 2 : Node ℕ ℕ).parent = some pid →
        ∃ pn, get_node (⟨[Node.new 1 2]⟩ : Tree ℕ ℕ) pid = some pn ∧
        get_node t2 pid = some { pn with
          children := pn.children.filter (fun c => c ≠ 1) }) ∧
      (∀ q, q ∉ (RT.mk 1 ([] : List (RT ℕ))).idList →
        (Node.new 1 2 : Node ℕ ℕ).parent ≠ some q →
        get_node t2 q = get_node (⟨[Node.new 1 2]⟩ : Tree ℕ ℕ) q) ∧
      t2.nodes.length + (RT.mk 1 ([] : List (RT ℕ))).idList.length
        = (⟨[Node.new 1 2]⟩ : Tree ℕ ℕ).nodes.length :=
  remove_node_rnc_spec (⟨[Node.new 1 2]⟩ : Tree ℕ ℕ) (wf_single 1 2) 1 (RT.mk 1 [])
    (Unfolds.mk rfl UnfoldsList.nil) (Node.new 1 2) rfl

/-! ## Rendering (`Tree::print_tree` and `impl Display`, `tree.rs` lines 567–643) -/

/-- Modelled from the spec: `Node`'s `Display` implementation (in the
missing `node.rs`) prints the id, a colon and a space, then the value
(§4.5 "the node's display form", the `id: value` lines of the §8
rendering example). -/
def node_display [ToString Q] [ToString T] (n : Node Q T) : String :=
  toString n.node_id ++ ": " ++ toString n.value

/-- The child loop of `print_tree`: each child is looked up (panic if
absent); `is_parent_last_item` re-reads the printed node's parent
(panicking on a missing parent or an empty parent child list); the
mutable `is_within` pair persists across iterations and is threaded
into both the recursive call and the next iteration. -/
def print_children (go : Node Q T → ℕ → (Bool × ℕ) → Bool → Option String)
    (t : Tree Q T) (node : Node Q T) (level : ℕ) :
    (Bool × ℕ) → ℕ → ℕ → List Q → Option String
  | _, _, _, [] => some ""
  | is_within, index, total, c :: cs =>
    match get_node t c with
    | none => none
    | some child =>
      let last_item : Bool := index = total - 1
      match (match node.parent with
             | some p =>
               match get_node t p with
               | none => none
               | some parent =>
                 match parent.children.getLast? with
                 | none => none
                 | some lastc => some (decide (lastc = node.node_id))
             | none => some true : Option Bool) with
      | none => none
      | some is_parent_last_item =>
        let iw : Bool × ℕ :=
          if !is_within.1 then (!is_parent_last_item, level)
          else (is_within.1, if level > 1 && decide (level ≤ 3) then level - 1
                             else if level > 3 then level - 2 else level)
        match go child (level + 1) iw last_item with
        | none => none
        | some sub =>
          match print_children go t node level iw (index + 1) total cs with
          | none => none
          | some rest => some (sub ++ rest)

/-- `Tree::print_tree`, fuelled: for `x in 1..level` emit `"│   "`
when the open-ancestor signal points at `x` and four spaces otherwise,
then the node's own line with `"└── "`/`"├── "` branch markers below
the root, then all children. -/
def print_tree_aux [ToString Q] [ToString T] (t : Tree Q T) :
    ℕ → Node Q T → ℕ → (Bool × ℕ) → Bool → Option String
  | 0, _, _, _, _ => none
  | fuel + 1, node, level, is_within, is_last_child =>
    let pre := String.join ((List.range' 1 (level - 1)).map (fun x =>
      if is_within.1 && decide (x = is_within.2) then "│   " else "    "))
    let line := if level > 0 then
        (if is_last_child then "└── " else "├── ") ++ node_display node ++ "\n"
      else node_display node ++ "\n"
    match print_children (print_tree_aux t fuel) t node level is_within 0
        node.children.length node.children with
    | none => none
    | some rest => some (pre ++ line ++ rest)

/-- `impl Display for Tree`: print from the root, or — when no root
exists — from `self.nodes.first().unwrap()`, which panics (`none`) on
an empty store. -/
def tree_to_string [ToString Q] [ToString T] (t : Tree Q T) : Option String :=
  match get_root_node t with
  | some node => print_tree_aux t (t.nodes.length + 1) node 0 (false, 0) true
  | none =>
    match t.nodes.head? with
    | none => none
    | some root => print_tree_aux t (t.nodes.length + 1) root 0 (false, 0) true

/-- The §8 rendering example tree: 1 (root), 2 under 1, 3 under 2,
4 under 2, 5 under 3, added in that order, with the values of the
crate's own display test. -/
def display_tree : Tree ℕ ℕ :=
  add_nodes Tree.new
    [(Node.new 1 2, none), (Node.new 2 3, some 1), (Node.new 3 6, some 2),
     (Node.new 4 5, some 2), (Node.new 5 6, some 3)]

/-- C9: the Display rendering of the tree built by adding 1 (root),
2 under 1, 3 under 2, 4 under 2 and 5 under 3 (values 2, 3, 6, 5, 6) is
exactly the §8 string: `id: value` lines, `"├── "`/`"└── "` branch
markers for non-last/last siblings, `"│   "` for the still-open
ancestor level and four spaces for completed ones. -/
theorem display_example_spec :
    tree_to_string display_tree
      = some "1: 2\n└── 2: 3\n    ├── 3: 6\n    │   └── 5: 6\n    └── 4: 5\n" := by
  decide

/-- C10: formatting the empty tree panics: the store has no root, so
`Display` falls through to `self.nodes.first().unwrap()` on the empty
node list (modelled by `none`). -/
theorem display_empty_tree_panics :
    get_root_node (Tree.new : Tree ℕ ℕ) = none ∧
    (Tree.new : Tree ℕ ℕ).nodes.head? = none ∧
    tree_to_string (Tree.new : Tree ℕ ℕ) = none := by
  decide

end TreeDS
